import Mathlib

set_option autoImplicit false

namespace FlightRoutes

/-! # Shallow embedding of `src/algorithm.py`

The Python code stores the adjacency structure in a `defaultdict(list)`.
We model a Python dict as an association list that preserves insertion
order.  A `defaultdict` lookup (`self.graph[v]`) *inserts* an empty entry
when the key is absent, so lookups that can create entries are modelled by
`ddGet`, which returns the (possibly extended) dictionary alongside the
value.  Python's recursive DFS is modelled with a fuel parameter; the
algorithm always runs it with fuel `N` (the vertex count), which is proved
sufficient for well-formed graphs in the lemmas below. -/

/-- A Python `dict` mapping vertex ids to adjacency lists, as an
insertion-ordered association list.  Keys are unique by construction. -/
abbrev Dict := List (Nat × List Nat)

/-- First-match association lookup (Python `dict.__getitem__` success case). -/
def lookupD (g : Dict) (k : Nat) : Option (List Nat) :=
  match g with
  | [] => none
  | (a, l) :: rest => if k = a then some l else lookupD rest k

/-- The adjacency-list contents of a dictionary, as a total function
(absent key = empty list, matching `defaultdict(list)` read semantics). -/
def adjFun (g : Dict) (k : Nat) : List Nat :=
  (lookupD g k).getD []

/-- The keys of the dictionary in insertion order (Python `for k in d`). -/
def keysOf (g : Dict) : List Nat :=
  g.map Prod.fst

/-- `defaultdict(list).__getitem__`: returns the stored list and inserts
`(k, [])` when the key is absent (the mutation Python performs). -/
def ddGet (g : Dict) (k : Nat) : List Nat × Dict :=
  match lookupD g k with
  | some l => (l, g)
  | none => ([], g ++ [(k, [])])

/-- `self.graph[k].append(v)` on a `defaultdict(list)`. -/
def ddAppend (g : Dict) (k v : Nat) : Dict :=
  match g with
  | [] => [(k, [v])]
  | (a, l) :: rest =>
    if k = a then (a, l ++ [v]) :: rest else (a, l) :: ddAppend rest k v

/-- The sequence of directed edges stored in the dictionary, in Python
iteration order (`for u in d: for v in d[u]`). -/
def edgeSeq (g : Dict) : List (Nat × Nat) :=
  g.flatMap (fun p => p.2.map (fun t => (p.1, t)))

/-- Python `set.add` on a set modelled as a duplicate-free list in
insertion order. -/
def setAdd (l : List Nat) (x : Nat) : List Nat :=
  if x ∈ l then l else l ++ [x]

/-- `compressed_graph[k].add(v)` on a `defaultdict(set)`. -/
def cgAdd (cg : Dict) (k v : Nat) : Dict :=
  match cg with
  | [] => [(k, [v])]
  | (a, l) :: rest =>
    if k = a then (a, setAdd l v) :: rest else (a, l) :: cgAdd rest k v

/-! ## Depth-first search (`_depth_first_search`, pass 1)

`dfs1Py` is the faithful model: it threads the graph dictionary because
`for neighbor in self.graph[vertex]` inserts an empty entry for `vertex`
when absent.  `dfs1` is the pure version used for reasoning; the two are
related by `dfs1Py_spec` below.  The `visited` array is modelled as a
total function `Nat → Bool`. -/

/-- Pure pass-1 DFS: mark `v` visited, recurse into unvisited neighbors,
push `v` on the finish stack afterwards. -/
def dfs1 (adj : Nat → List Nat) : Nat → Nat → (Nat → Bool) × List Nat → (Nat → Bool) × List Nat
  | 0, _, st => st
  | fuel+1, v, st =>
    let st1 := (adj v).foldl
      (fun acc n => if acc.1 n then acc else dfs1 adj fuel n acc)
      (fun w => if w = v then true else st.1 w, st.2)
    (st1.1, st1.2 ++ [v])

/-- Faithful pass-1 DFS threading the `defaultdict` state. -/
def dfs1Py : Nat → Dict → Nat → (Nat → Bool) → List Nat → Dict × (Nat → Bool) × List Nat
  | 0, g, _, vis, stk => (g, vis, stk)
  | fuel+1, g, v, vis, stk =>
    let vis1 := fun w => if w = v then true else vis w
    let p := ddGet g v
    let acc := p.1.foldl
      (fun (acc : Dict × (Nat → Bool) × List Nat) n =>
        if acc.2.1 n then acc else dfs1Py fuel acc.1 n acc.2.1 acc.2.2)
      (p.2, vis1, stk)
    (acc.1, acc.2.1, acc.2.2 ++ [v])

/-! ## Transposed-graph DFS (`_depth_first_search_transposed`, pass 2) -/

/-- Pure pass-2 DFS: mark `v`, append it to the component (preorder),
recurse into unvisited neighbors. -/
def dfs2 (adj : Nat → List Nat) : Nat → Nat → (Nat → Bool) × List Nat → (Nat → Bool) × List Nat
  | 0, _, st => st
  | fuel+1, v, st =>
    (adj v).foldl
      (fun acc n => if acc.1 n then acc else dfs2 adj fuel n acc)
      (fun w => if w = v then true else st.1 w, st.2 ++ [v])

/-- Faithful pass-2 DFS threading the transposed `defaultdict` state. -/
def dfs2Py : Nat → Dict → Nat → (Nat → Bool) → List Nat → Dict × (Nat → Bool) × List Nat
  | 0, g, _, vis, comp => (g, vis, comp)
  | fuel+1, g, v, vis, comp =>
    let vis1 := fun w => if w = v then true else vis w
    let p := ddGet g v
    p.1.foldl
      (fun (acc : Dict × (Nat → Bool) × List Nat) n =>
        if acc.2.1 n then acc else dfs2Py fuel acc.1 n acc.2.1 acc.2.2)
      (p.2, vis1, comp ++ [v])

/-! ## The two passes of `find_strongly_connected_components` -/

/-- Pass 1 main loop: `for i in range(N): if not visited[i]: dfs(i)`,
threading the graph dictionary. -/
def pass1Py (fuel : Nat) : List Nat → Dict → (Nat → Bool) → List Nat → Dict × (Nat → Bool) × List Nat
  | [], g, vis, stk => (g, vis, stk)
  | i :: rest, g, vis, stk =>
    if vis i then pass1Py fuel rest g vis stk
    else
      let r := dfs1Py fuel g i vis stk
      pass1Py fuel rest r.1 r.2.1 r.2.2

/-- Pure pass 1 main loop. -/
def pass1 (adj : Nat → List Nat) (fuel : Nat) : List Nat → (Nat → Bool) × List Nat → (Nat → Bool) × List Nat
  | [], st => st
  | i :: rest, st =>
    if st.1 i then pass1 adj fuel rest st
    else pass1 adj fuel rest (dfs1 adj fuel i st)

/-- Pass 2 main loop: pop vertices in decreasing finish order, start a new
component for each unvisited one (`while stack: v = stack.pop() ...`).
The input list is the reversed finish stack (pop order). -/
def pass2Py (fuel : Nat) : List Nat → Dict → (Nat → Bool) → List (List Nat) → Dict × (Nat → Bool) × List (List Nat)
  | [], tg, vis, sccs => (tg, vis, sccs)
  | v :: rest, tg, vis, sccs =>
    if vis v then pass2Py fuel rest tg vis sccs
    else
      let r := dfs2Py fuel tg v vis []
      pass2Py fuel rest r.1 r.2.1 (sccs ++ [r.2.2])

/-- Pure pass 2 main loop. -/
def pass2 (adj : Nat → List Nat) (fuel : Nat) : List Nat → (Nat → Bool) → List (List Nat) → (Nat → Bool) × List (List Nat)
  | [], vis, sccs => (vis, sccs)
  | v :: rest, vis, sccs =>
    if vis v then pass2 adj fuel rest vis sccs
    else
      let r := dfs2 adj fuel v (vis, [])
      pass2 adj fuel rest r.1 (sccs ++ [r.2])

/-! ## Iterating all stored edges (`for u in self.graph: for v in self.graph[u]`)

Both `_transpose_graph` and `build_compressed_graph_from_sccs` iterate the
adjacency dictionary with this nested loop.  The inner `self.graph[u]`
lookup goes through `defaultdict.__getitem__`, so the iteration is
modelled with `ddGet` on a threaded copy of the dictionary; since every
looked-up key is present, the dictionary is provably unchanged. -/

/-- Nested edge iteration, threading the (potentially mutated) source
dictionary.  Returns the fold result and the final source dictionary. -/
def iterEdgesPy {α : Type} (g : Dict) (f : α → Nat → Nat → α) (init : α) : α × Dict :=
  (keysOf g).foldl
    (fun (acc : α × Dict) k =>
      let p := ddGet acc.2 k
      (p.1.foldl (fun a t => f a k t) acc.1, p.2))
    (init, g)

/-- `_transpose_graph`, returning the transposed dictionary together with
the final state of the original dictionary (to state non-mutation). -/
def transposePy (g : Dict) : Dict × Dict :=
  iterEdgesPy g (fun t fr dst => ddAppend t dst fr) []

/-- The transposed graph's dictionary. -/
def transposeD (g : Dict) : Dict :=
  (transposePy g).1

/-- `scc_map` construction loop: `for idx, scc in enumerate(sccs): for a in
scc: scc_map[a] = idx`, with the running index made explicit.  Later
assignments overwrite earlier ones, as in a Python dict. -/
def sccMapAux (idx : Nat) : List (List Nat) → (Nat → Option Nat) → (Nat → Option Nat)
  | [], m => m
  | C :: rest, m =>
    sccMapAux (idx + 1) rest (C.foldl (fun m2 a => fun x => if x = a then some idx else m2 x) m)

/-- `scc_map`: vertex -> index of the component containing it. -/
def sccMapFun (sccs : List (List Nat)) : Nat → Option Nat :=
  sccMapAux 0 sccs (fun _ => none)

/-- `build_compressed_graph_from_sccs`: record every cross-component edge
in a `defaultdict(set)` keyed by source component.  `scc_map[x]` lookups
are total here (`getD 0`); under the partition property proved below every
looked-up vertex is in some component, so the default is never taken for
the graphs the theorems quantify over. -/
def build_compressed_graph_from_sccs (g : Dict) (sccs : List (List Nat)) : Dict :=
  (iterEdgesPy g
    (fun cg fr dst =>
      let cu := (sccMapFun sccs fr).getD 0
      let cv := (sccMapFun sccs dst).getD 0
      if cu ≠ cv then cgAdd cg cu cv else cg)
    []).1

/-- `calculate_routes_needed` step 1: in-degree of component `v` in the
compressed graph.  The values of the compressed dictionary are
duplicate-free (Python sets), so membership contributes exactly one. -/
def inDegreeOf (cg : Dict) (v : Nat) : Nat :=
  cg.foldl (fun d p => if v ∈ p.2 then d + 1 else d) 0

/-- `calculate_routes_needed`: count indices in `range(len(compressed_graph))`
that differ from `start_scc` and have in-degree 0. -/
def calculate_routes_needed (cg : Dict) (start_scc : Nat) : Nat :=
  ((List.range cg.length).filter
    (fun node => !(node == start_scc) && (inDegreeOf cg node == 0))).length

/-! ## The `Graph` class -/

/-- Python exceptions surfaced by the code: `KeyError` (unknown label)
and `StopIteration` (no component found for the start vertex). -/
inductive PyError where
  | keyError (label : String)
  | stopIt
  deriving DecidableEq, Repr

/-- The `Graph` object: the airports dict (label -> id), the vertex count
(`len(airports)`), and the adjacency `defaultdict`. -/
structure Graph where
  airports : List (String × Nat)
  vertices : Nat
  graph : Dict
  deriving Repr

/-- First-match lookup in the airports dict. -/
def lookupLabel (airports : List (String × Nat)) (s : String) : Option Nat :=
  match airports with
  | [] => none
  | (a, i) :: rest => if s = a then some i else lookupLabel rest s

/-- `Graph.__init__`. -/
def Graph.init (airports : List (String × Nat)) : Graph :=
  ⟨airports, airports.length, []⟩

/-- `Graph.add_edge` (called with resolved integer ids). -/
def Graph.add_edge (G : Graph) (fr dst : Nat) : Graph :=
  { G with graph := ddAppend G.graph fr dst }

/-- `Graph.add_routes`: resolve each label pair through the airports dict
and call `add_edge`; a missing label raises `KeyError`, keeping the edges
added so far. -/
def Graph.add_routes : Graph → List (String × String) → Except PyError Unit × Graph
  | G, [] => (Except.ok (), G)
  | G, (f, t) :: rest =>
    match lookupLabel G.airports f with
    | none => (Except.error (PyError.keyError f), G)
    | some fi =>
      match lookupLabel G.airports t with
      | none => (Except.error (PyError.keyError t), G)
      | some ti => Graph.add_routes (G.add_edge fi ti) rest

/-- `find_strongly_connected_components`: pass 1 over all vertices, build
the transposed graph, pass 2 over the reversed finish stack.  Returns the
component list and the final state of `self.graph` (pass 1 may have
inserted empty entries).  Both recursive traversals run with fuel
`self.vertices`, which is sufficient for graphs on `[0, N)`. -/
def find_strongly_connected_components (N : Nat) (g : Dict) : List (List Nat) × Dict :=
  let p1 := pass1Py N (List.range N) g (fun _ => false) []
  let tg := transposeD p1.1
  let p2 := pass2Py N p1.2.2.reverse tg (fun _ => false) []
  (p2.2.2, p1.1)

/-- `find_minimum_additional_routes`.  Returns the Python result (value or
exception) together with the final `Graph` object, whose adjacency
dictionary keeps the empty entries inserted by pass 1.  The start-label
lookup happens inside the generator of step 3, so with an empty component
list the generator is exhausted (`StopIteration`) before the label is ever
resolved. -/
def Graph.find_minimum_additional_routes (G : Graph) (start : String) : Except PyError Nat × Graph :=
  let r := find_strongly_connected_components G.vertices G.graph
  let sccs := r.1
  let G1 : Graph := { G with graph := r.2 }
  let cg := build_compressed_graph_from_sccs r.2 sccs
  match sccs with
  | [] => (Except.error PyError.stopIt, G1)
  | _ :: _ =>
    match lookupLabel G.airports start with
    | none => (Except.error (PyError.keyError start), G1)
    | some sid =>
      match sccs.enum.find? (fun p => sid ∈ p.2) with
      | none => (Except.error PyError.stopIt, G1)
      | some p => (Except.ok (calculate_routes_needed cg p.1), G1)

/-! ## Sample data from `src/test.py` -/

/-- The 18-airport map of `test.py`, in insertion order. -/
def sampleAirports : List (String × Nat) :=
  [("DSM", 0), ("ORD", 1), ("BGI", 2), ("LGA", 3), ("TLV", 4), ("DEL", 5), ("DOH", 6),
   ("CDG", 7), ("SIN", 8), ("BUD", 9), ("JFK", 10), ("HND", 11), ("ICN", 12),
   ("SFO", 13), ("SAN", 14), ("EYW", 15), ("LHR", 16), ("EWR", 17)]

/-- The 20-route list of `test.py`, in order. -/
def sampleRoutes : List (String × String) :=
  [("DSM", "ORD"), ("ORD", "BGI"), ("BGI", "LGA"), ("LGA", "ORD"),
   ("TLV", "DEL"), ("DEL", "CDG"), ("CDG", "BUD"), ("CDG", "DEL"), ("CDG", "SIN"), ("SIN", "CDG"),
   ("DEL", "DOH"), ("JFK", "HND"), ("HND", "ICN"), ("ICN", "JFK"),
   ("SFO", "SAN"), ("SAN", "EYW"), ("EYW", "SFO"), ("SFO", "LHR"), ("LHR", "SFO"), ("EWR", "HND")]

/-- The `Graph` object `test.py` builds (`Graph(airports)` + `add_routes`). -/
def sampleGraph : Graph :=
  ((Graph.init sampleAirports).add_routes sampleRoutes).2

/-! ## Specification-side definitions and proof-layer predicates -/

/-- Modelled from the spec (§4.4 step 2): count component indices over the
FULL component range `0 .. numComponents - 1` that differ from the start
component and have in-degree 0.  This is the quantity claim C1 asserts the
code computes; the code instead ranges over `len(compressed_graph)`. -/
def spec_routes_needed (cg : Dict) (numComponents start_scc : Nat) : Nat :=
  ((List.range numComponents).filter
    (fun node => !(node == start_scc) && (inDegreeOf cg node == 0))).length

/-- Directed edge relation of an adjacency function. -/
def Edge (adj : Nat → List Nat) (u v : Nat) : Prop :=
  v ∈ adj u

/-- Reachability along directed edges (reflexive-transitive closure). -/
def Reach (adj : Nat → List Nat) : Nat → Nat → Prop :=
  Relation.ReflTransGen (Edge adj)

/-- One edge step both of whose endpoints are unvisited. -/
def StepA (adj : Nat → List Nat) (vis : Nat → Bool) (u v : Nat) : Prop :=
  v ∈ adj u ∧ vis u = false ∧ vis v = false

/-- Reachability through unvisited vertices only. -/
def ReachA (adj : Nat → List Nat) (vis : Nat → Bool) : Nat → Nat → Prop :=
  Relation.ReflTransGen (StepA adj vis)

/-- Mutual reachability: `u` and `v` lie in the same strongly connected
component of the graph described by `adj`. -/
def SameSCC (adj : Nat → List Nat) (u v : Nat) : Prop :=
  Reach adj u v ∧ Reach adj v u

/-- `C` is exactly the strongly connected component of `ρ`. -/
def IsSCCOf (adj : Nat → List Nat) (C : List Nat) (ρ : Nat) : Prop :=
  ∀ w, w ∈ C ↔ SameSCC adj ρ w

/-- Adjacency well-formedness: every stored edge stays inside `[0, N)`. -/
def WfAdj (N : Nat) (adj : Nat → List Nat) : Prop :=
  ∀ u, ∀ w ∈ adj u, u < N ∧ w < N

/-- Dictionary well-formedness for a graph on `[0, N)`: unique keys and
every stored edge inside `[0, N)`. -/
def WfDict (N : Nat) (g : Dict) : Prop :=
  (keysOf g).Nodup ∧ ∀ p ∈ edgeSeq g, p.1 < N ∧ p.2 < N

/-- Every visited vertex outside the gray set `Γ` has all its successors
visited (`Γ` is the chain of DFS calls still in progress). -/
def GrayOK (adj : Nat → List Nat) (Γ : List Nat) (vis : Nat → Bool) : Prop :=
  ∀ x, vis x = true → x ∉ Γ → ∀ w ∈ adj x, vis w = true

/-- The set of unvisited vertices in `[0, N)`, for fuel accounting. -/
def unvis (N : Nat) (vis : Nat → Bool) : Finset Nat :=
  (Finset.range N).filter (fun w => vis w = false)

/-- `w` occurs strictly later in `l` than some occurrence of `q`. -/
def AfterIn (l : List Nat) (q w : Nat) : Prop :=
  ∃ l₁ l₂, l = l₁ ++ l₂ ∧ q ∈ l₁ ∧ w ∈ l₂

/-- The mark operation on the visited array (`visited[v] = True`). -/
def Mark (v : Nat) (vis : Nat → Bool) : Nat → Bool :=
  fun w => if w = v then true else vis w

/-- The neighbor loop of `dfs1`, explicit for induction. -/
def dfsL1 (adj : Nat → List Nat) (fuel : Nat) (l : List Nat)
    (st : (Nat → Bool) × List Nat) : (Nat → Bool) × List Nat :=
  l.foldl (fun acc n => if acc.1 n then acc else dfs1 adj fuel n acc) st

/-- The neighbor loop of `dfs2`, explicit for induction. -/
def dfsL2 (adj : Nat → List Nat) (fuel : Nat) (l : List Nat)
    (st : (Nat → Bool) × List Nat) : (Nat → Bool) × List Nat :=
  l.foldl (fun acc n => if acc.1 n then acc else dfs2 adj fuel n acc) st

/-- The bundle of basic facts about one DFS call: the stack grows by a
block `t`, the visited set grows by exactly the elements of `t`, all of
which were unvisited, and `t` has no duplicates. -/
def DfsBundle (st st' : (Nat → Bool) × List Nat) (t : List Nat) : Prop :=
  st'.2 = st.2 ++ t ∧
  (∀ w, st'.1 w = true ↔ (st.1 w = true ∨ w ∈ t)) ∧
  (∀ w ∈ t, st.1 w = false) ∧
  t.Nodup

/-- Transposed dictionary built directly from an edge sequence; equal to
`transposeD` for duplicate-free key lists. -/
def foldT (E : List (Nat × Nat)) : Dict :=
  E.foldl (fun t p => ddAppend t p.2 p.1) []

/-- The adjacency function of the transposed graph. -/
def adjTOf (g : Dict) : Nat → List Nat :=
  adjFun (foldT (edgeSeq g))

/-- The component list produced by the two pure Kosaraju passes. -/
def sccsPure (adjO adjT : Nat → List Nat) (N : Nat) : List (List Nat) :=
  (pass2 adjT N ((pass1 adjO N (List.range N) (fun _ => false, [])).2).reverse
    (fun _ => false) []).2

/-- `g'` extends `g` with empty `defaultdict` entries only: same adjacency
contents, same edge sequence, keys stay duplicate-free. -/
def DictExt (g g' : Dict) : Prop :=
  adjFun g' = adjFun g ∧ edgeSeq g' = edgeSeq g ∧
    ((keysOf g).Nodup → (keysOf g').Nodup)

/-- `adj'` differs from `adj` by one duplicated neighbor: at key `k` an
element `x` already occurring earlier is inserted once more. -/
def DupExt (adj adj' : Nat → List Nat) : Prop :=
  ∃ k x l₁ l₂, adj k = l₁ ++ l₂ ∧ adj' k = l₁ ++ x :: l₂ ∧ x ∈ l₁ ∧
    ∀ w, ¬ w = k → adj' w = adj w

/-- Two dictionaries differing by one duplicated list element at one key. -/
def InsDup (T T' : Dict) : Prop :=
  ∃ A k l₁ x l₂ B, x ∈ l₁ ∧ T = A ++ (k, l₁ ++ l₂) :: B ∧
    T' = A ++ (k, l₁ ++ x :: l₂) :: B

/-- The result is a Python `KeyError` on some label (the spec's
`UnknownLabelError`). -/
def isUnknownLabel {α : Type} (e : Except PyError α) : Prop :=
  ∃ l, e = Except.error (PyError.keyError l)

/-- An edge of the compressed (condensed) graph. -/
def cEdge (cg : Dict) (i j : Nat) : Prop :=
  j ∈ adjFun cg i

/-! # Lemmas

## Dictionary layer -/

theorem lookupD_isSome_iff_mem {g : Dict} {k : Nat} :
    (lookupD g k).isSome = true ↔ k ∈ keysOf g := by
  induction g with
  | nil => simp [lookupD, keysOf]
  | cons p rest ih =>
    obtain ⟨a, l⟩ := p
    by_cases h : k = a <;> simp [lookupD, keysOf, h] at ih ⊢
    exact ih

theorem lookupD_eq_none_iff {g : Dict} {k : Nat} :
    lookupD g k = none ↔ k ∉ keysOf g := by
  rw [← lookupD_isSome_iff_mem, Option.isSome_iff_ne_none]
  tauto

theorem ddGet_fst (g : Dict) (k : Nat) : (ddGet g k).1 = adjFun g k := by
  unfold ddGet adjFun
  cases h : lookupD g k <;> simp [h]

theorem ddGet_of_mem {g : Dict} {k : Nat} (h : k ∈ keysOf g) :
    ddGet g k = (adjFun g k, g) := by
  rw [← lookupD_isSome_iff_mem] at h
  unfold ddGet adjFun
  cases hl : lookupD g k <;> simp [hl] at h ⊢

theorem lookupD_append_of_isSome {g h : Dict} {k : Nat}
    (hk : (lookupD g k).isSome) : lookupD (g ++ h) k = lookupD g k := by
  induction g with
  | nil => simp [lookupD] at hk
  | cons p rest ih =>
    obtain ⟨a, l⟩ := p
    by_cases hka : k = a <;> simp [lookupD, hka] at hk ⊢
    exact ih hk

theorem lookupD_append_of_none {g h : Dict} {k : Nat}
    (hk : lookupD g k = none) : lookupD (g ++ h) k = lookupD h k := by
  induction g with
  | nil => simp [lookupD]
  | cons p rest ih =>
    obtain ⟨a, l⟩ := p
    by_cases hka : k = a <;> simp [lookupD, hka] at hk ⊢
    exact ih hk

theorem adjFun_ddGet_snd (g : Dict) (k : Nat) :
    adjFun (ddGet g k).2 = adjFun g := by
  funext x
  unfold ddGet
  cases hl : lookupD g k with
  | some l => simp
  | none =>
    simp only [adjFun]
    by_cases hx : (lookupD g x).isSome
    · rw [lookupD_append_of_isSome hx]
    · have hx0 : lookupD g x = none := by
        cases h : lookupD g x <;> simp [h] at hx ⊢
      rw [lookupD_append_of_none hx0, hx0]
      by_cases hxk : x = k <;> simp [lookupD, hxk]

theorem edgeSeq_append (g h : Dict) : edgeSeq (g ++ h) = edgeSeq g ++ edgeSeq h := by
  simp [edgeSeq]

theorem edgeSeq_ddGet_snd (g : Dict) (k : Nat) :
    edgeSeq (ddGet g k).2 = edgeSeq g := by
  unfold ddGet
  cases hl : lookupD g k with
  | some l => simp
  | none => simp [edgeSeq_append, edgeSeq]

theorem keysOf_cons (p : Nat × List Nat) (g : Dict) :
    keysOf (p :: g) = p.1 :: keysOf g := rfl

theorem keysOf_append (g h : Dict) : keysOf (g ++ h) = keysOf g ++ keysOf h := by
  simp [keysOf]

theorem edgeSeq_cons (p : Nat × List Nat) (g : Dict) :
    edgeSeq (p :: g) = p.2.map (fun t => (p.1, t)) ++ edgeSeq g := by
  simp [edgeSeq]

theorem keysOf_ddGet_snd (g : Dict) (k : Nat) :
    keysOf (ddGet g k).2 = keysOf g ∨
      (keysOf (ddGet g k).2 = keysOf g ++ [k] ∧ k ∉ keysOf g) := by
  unfold ddGet
  cases hl : lookupD g k with
  | some l => left; simp
  | none =>
    right
    exact ⟨by simp [keysOf_append, keysOf], lookupD_eq_none_iff.mp hl⟩

theorem nodupKeys_ddGet_snd {g : Dict} (k : Nat) (h : (keysOf g).Nodup) :
    (keysOf (ddGet g k).2).Nodup := by
  rcases keysOf_ddGet_snd g k with h1 | ⟨h1, h2⟩
  · rwa [h1]
  · rw [h1]
    simpa [List.nodup_append] using ⟨h, h2⟩

theorem ddAppend_cons_ne {a k v : Nat} {l : List Nat} {rest : Dict} (h : ¬ k = a) :
    ddAppend ((a, l) :: rest) k v = (a, l) :: ddAppend rest k v := by
  simp [ddAppend, h]

theorem adjFun_ddAppend_self (g : Dict) (k v : Nat) :
    adjFun (ddAppend g k v) k = adjFun g k ++ [v] := by
  induction g with
  | nil => simp [ddAppend, adjFun, lookupD]
  | cons p rest ih =>
    obtain ⟨a, l⟩ := p
    by_cases hka : k = a
    · subst hka; simp [ddAppend, adjFun, lookupD]
    · rw [ddAppend_cons_ne hka]
      simp only [adjFun, lookupD, if_neg hka] at ih ⊢
      exact ih

theorem adjFun_ddAppend_ne (g : Dict) {k x : Nat} (v : Nat) (hx : ¬ x = k) :
    adjFun (ddAppend g k v) x = adjFun g x := by
  induction g with
  | nil => simp [ddAppend, adjFun, lookupD, hx]
  | cons p rest ih =>
    obtain ⟨a, l⟩ := p
    by_cases hka : k = a
    · subst hka
      simp [ddAppend, adjFun, lookupD, hx]
    · rw [ddAppend_cons_ne hka]
      by_cases hxa : x = a
      · subst hxa
        simp [adjFun, lookupD]
      · simp only [adjFun, lookupD, if_neg hxa] at ih ⊢
        exact ih

theorem adjFun_ddAppend (g : Dict) (k v : Nat) :
    adjFun (ddAppend g k v) =
      fun x => if x = k then adjFun g k ++ [v] else adjFun g x := by
  funext x
  by_cases hx : x = k
  · subst hx
    simp [adjFun_ddAppend_self]
  · simp [adjFun_ddAppend_ne g v hx, hx]

theorem keysOf_ddAppend (g : Dict) (k v : Nat) :
    keysOf (ddAppend g k v) = if k ∈ keysOf g then keysOf g else keysOf g ++ [k] := by
  induction g with
  | nil => simp [ddAppend, keysOf]
  | cons p rest ih =>
    obtain ⟨a, l⟩ := p
    by_cases hka : k = a
    · subst hka
      rw [if_pos (by simp [keysOf_cons])]
      simp [ddAppend, keysOf_cons]
    · rw [ddAppend_cons_ne hka, keysOf_cons, keysOf_cons, ih]
      by_cases hm : k ∈ keysOf rest
      · rw [if_pos hm, if_pos (by simp [keysOf_cons]; tauto)]
      · rw [if_neg hm, if_neg (by simp [keysOf_cons]; tauto)]
        simp

theorem edgeSeq_ddAppend_perm (g : Dict) (k v : Nat) :
    (edgeSeq (ddAppend g k v)).Perm ((k, v) :: edgeSeq g) := by
  induction g with
  | nil => simp [ddAppend, edgeSeq]
  | cons p rest ih =>
    obtain ⟨a, l⟩ := p
    by_cases hka : k = a
    · subst hka
      rw [show ddAppend ((k, l) :: rest) k v = (k, l ++ [v]) :: rest from by simp [ddAppend]]
      rw [edgeSeq_cons, edgeSeq_cons]
      simp only [List.map_append, List.map_cons, List.map_nil]
      rw [List.append_assoc]
      exact List.perm_middle
    · rw [ddAppend_cons_ne hka, edgeSeq_cons, edgeSeq_cons]
      exact (ih.append_left _).trans List.perm_middle

/-! ## Edge iteration and transposition -/

theorem adjFun_cons_self (a : Nat) (l : List Nat) (rest : Dict) :
    adjFun ((a, l) :: rest) a = l := by
  simp [adjFun, lookupD]

theorem adjFun_cons_ne {a x : Nat} (l : List Nat) (rest : Dict) (h : ¬ x = a) :
    adjFun ((a, l) :: rest) x = adjFun rest x := by
  simp [adjFun, lookupD, h]

theorem foldl_congr_mem {α β : Type} {f f' : α → β → α} :
    ∀ {l : List β}, (∀ a, ∀ x ∈ l, f a x = f' a x) → ∀ a, l.foldl f a = l.foldl f' a := by
  intro l
  induction l with
  | nil => intro _ a; rfl
  | cons x xs ih =>
    intro h a
    simp only [List.foldl_cons]
    rw [h a x (by simp)]
    exact ih (fun a y hy => h a y (by simp [hy])) _

theorem iterEdgesPy_aux {α : Type} (g : Dict) (f : α → Nat → Nat → α) :
    ∀ (ks : List Nat), (∀ k ∈ ks, k ∈ keysOf g) → ∀ (a : α),
      ks.foldl
        (fun (acc : α × Dict) k =>
          let p := ddGet acc.2 k
          (p.1.foldl (fun a t => f a k t) acc.1, p.2)) (a, g)
        = (ks.foldl (fun a k => (adjFun g k).foldl (fun a t => f a k t) a) a, g) := by
  intro ks
  induction ks with
  | nil => intro _ a; rfl
  | cons k rest ih =>
    intro h a
    simp only [List.foldl_cons]
    rw [ddGet_of_mem (h k (by simp))]
    exact ih (fun x hx => h x (by simp [hx])) _

theorem iterEdgesPy_eq {α : Type} (g : Dict) (f : α → Nat → Nat → α) (init : α) :
    iterEdgesPy g f init =
      ((keysOf g).foldl (fun a k => (adjFun g k).foldl (fun a t => f a k t) a) init, g) := by
  unfold iterEdgesPy
  exact iterEdgesPy_aux g f (keysOf g) (fun k hk => hk) init

theorem iterEdgesPy_snd {α : Type} (g : Dict) (f : α → Nat → Nat → α) (init : α) :
    (iterEdgesPy g f init).2 = g := by
  rw [iterEdgesPy_eq]

theorem keys_foldl_eq_edgeSeq_foldl {α : Type} (f : α → Nat → Nat → α) :
    ∀ (g : Dict), (keysOf g).Nodup → ∀ (init : α),
      (keysOf g).foldl (fun a k => (adjFun g k).foldl (fun a t => f a k t) a) init
        = (edgeSeq g).foldl (fun a p => f a p.1 p.2) init := by
  intro g
  induction g with
  | nil => intro _ init; rfl
  | cons p rest ih =>
    obtain ⟨a0, l0⟩ := p
    intro hnd init
    rw [keysOf_cons] at hnd ⊢
    simp only [List.foldl_cons]
    rw [edgeSeq_cons, List.foldl_append, List.foldl_map]
    have ha0 : adjFun ((a0, l0) :: rest) a0 = l0 := adjFun_cons_self a0 l0 rest
    rw [ha0]
    have hstep : ∀ (b : α), ∀ x ∈ keysOf rest,
        (adjFun ((a0, l0) :: rest) x).foldl (fun a t => f a x t) b
          = (adjFun rest x).foldl (fun a t => f a x t) b := by
      intro b x hx
      have hxa : ¬ x = a0 := by
        intro hx0
        subst hx0
        exact (List.nodup_cons.mp hnd).1 hx
      rw [adjFun_cons_ne l0 rest hxa]
    rw [foldl_congr_mem hstep]
    exact ih (List.nodup_cons.mp hnd).2 _

theorem iterEdgesPy_fst {α : Type} (g : Dict) (f : α → Nat → Nat → α) (init : α)
    (hnd : (keysOf g).Nodup) :
    (iterEdgesPy g f init).1 = (edgeSeq g).foldl (fun a p => f a p.1 p.2) init := by
  rw [iterEdgesPy_eq]
  exact keys_foldl_eq_edgeSeq_foldl f g hnd init

theorem transposePy_snd (g : Dict) : (transposePy g).2 = g :=
  iterEdgesPy_snd g _ []

theorem transposeD_eq (g : Dict) (hnd : (keysOf g).Nodup) :
    transposeD g = (edgeSeq g).foldl (fun t p => ddAppend t p.2 p.1) [] :=
  iterEdgesPy_fst g _ [] hnd

theorem build_compressed_eq (g : Dict) (sccs : List (List Nat))
    (hnd : (keysOf g).Nodup) :
    build_compressed_graph_from_sccs g sccs =
      (edgeSeq g).foldl
        (fun cg p =>
          let cu := (sccMapFun sccs p.1).getD 0
          let cv := (sccMapFun sccs p.2).getD 0
          if cu ≠ cv then cgAdd cg cu cv else cg) [] :=
  iterEdgesPy_fst g _ [] hnd

theorem nodupKeys_ddAppend {g : Dict} (k v : Nat) (h : (keysOf g).Nodup) :
    (keysOf (ddAppend g k v)).Nodup := by
  rw [keysOf_ddAppend]
  by_cases hm : k ∈ keysOf g
  · rwa [if_pos hm]
  · rw [if_neg hm]
    simpa [List.nodup_append] using ⟨h, hm⟩

theorem edgeSeq_foldT_perm :
    ∀ (E : List (Nat × Nat)) (T : Dict),
      (edgeSeq (E.foldl (fun t p => ddAppend t p.2 p.1) T)).Perm
        (E.map Prod.swap ++ edgeSeq T) := by
  intro E
  induction E with
  | nil => intro T; simp
  | cons p E ih =>
    intro T
    simp only [List.foldl_cons, List.map_cons]
    have h1 := ih (ddAppend T p.2 p.1)
    have h2 : (edgeSeq (ddAppend T p.2 p.1)).Perm ((p.2, p.1) :: edgeSeq T) :=
      edgeSeq_ddAppend_perm T p.2 p.1
    refine h1.trans ((h2.append_left _).trans ?_)
    show (List.map Prod.swap E ++ (p.2, p.1) :: edgeSeq T).Perm
      (Prod.swap p :: (List.map Prod.swap E ++ edgeSeq T))
    exact List.perm_middle

theorem nodupKeys_foldT :
    ∀ (E : List (Nat × Nat)) (T : Dict), (keysOf T).Nodup →
      (keysOf (E.foldl (fun t p => ddAppend t p.2 p.1) T)).Nodup := by
  intro E
  induction E with
  | nil => intro T h; exact h
  | cons p E ih =>
    intro T h
    exact ih _ (nodupKeys_ddAppend _ _ h)

theorem nodupKeys_transposeD (g : Dict) (hnd : (keysOf g).Nodup) :
    (keysOf (transposeD g)).Nodup := by
  rw [transposeD_eq g hnd]
  exact nodupKeys_foldT _ [] (by simp [keysOf])

theorem mem_keys_of_mem_edgeSeq {g : Dict} {a b : Nat} (h : (a, b) ∈ edgeSeq g) :
    a ∈ keysOf g := by
  induction g with
  | nil => simp [edgeSeq] at h
  | cons q rest ih =>
    rw [edgeSeq_cons] at h
    rw [keysOf_cons]
    rcases List.mem_append.mp h with h1 | h2
    · rcases List.mem_map.mp h1 with ⟨t, _, he⟩
      have hq : q.1 = a := congrArg Prod.fst he
      rw [hq]
      exact List.mem_cons_self _ _
    · exact List.mem_cons_of_mem _ (ih h2)

theorem mem_edgeSeq_iff {g : Dict} (hnd : (keysOf g).Nodup) {a b : Nat} :
    (a, b) ∈ edgeSeq g ↔ b ∈ adjFun g a := by
  induction g with
  | nil => simp [edgeSeq, adjFun, lookupD]
  | cons p rest ih =>
    obtain ⟨a0, l0⟩ := p
    rw [keysOf_cons, List.nodup_cons] at hnd
    rw [edgeSeq_cons]
    by_cases ha : a = a0
    · subst ha
      rw [adjFun_cons_self]
      simp only [List.mem_append, List.mem_map]
      constructor
      · rintro (⟨t, ht, he⟩ | hmem)
        · cases he; exact ht
        · exact absurd (mem_keys_of_mem_edgeSeq hmem) hnd.1
      · intro hb
        left
        exact ⟨b, hb, rfl⟩
    · rw [adjFun_cons_ne l0 rest ha]
      simp only [List.mem_append, List.mem_map]
      constructor
      · rintro (⟨t, ht, he⟩ | hmem)
        · exact absurd (congrArg Prod.fst he).symm ha
        · exact (ih hnd.2).mp hmem
      · intro hb
        right
        exact (ih hnd.2).mpr hb

/-! ## DFS basics: unfolding and the pushes/marks bundle -/

theorem dfs1_zero (adj : Nat → List Nat) (v : Nat) (st : (Nat → Bool) × List Nat) :
    dfs1 adj 0 v st = st := rfl

theorem dfs1_succ (adj : Nat → List Nat) (f v : Nat) (st : (Nat → Bool) × List Nat) :
    dfs1 adj (f + 1) v st =
      ((dfsL1 adj f (adj v) (Mark v st.1, st.2)).1,
       (dfsL1 adj f (adj v) (Mark v st.1, st.2)).2 ++ [v]) := rfl

theorem dfsL1_nil (adj : Nat → List Nat) (f : Nat) (st : (Nat → Bool) × List Nat) :
    dfsL1 adj f [] st = st := rfl

theorem dfsL1_cons (adj : Nat → List Nat) (f n : Nat) (l : List Nat)
    (st : (Nat → Bool) × List Nat) :
    dfsL1 adj f (n :: l) st =
      dfsL1 adj f l (if st.1 n then st else dfs1 adj f n st) := rfl

theorem dfs2_zero (adj : Nat → List Nat) (v : Nat) (st : (Nat → Bool) × List Nat) :
    dfs2 adj 0 v st = st := rfl

theorem dfs2_succ (adj : Nat → List Nat) (f v : Nat) (st : (Nat → Bool) × List Nat) :
    dfs2 adj (f + 1) v st = dfsL2 adj f (adj v) (Mark v st.1, st.2 ++ [v]) := rfl

theorem dfsL2_nil (adj : Nat → List Nat) (f : Nat) (st : (Nat → Bool) × List Nat) :
    dfsL2 adj f [] st = st := rfl

theorem dfsL2_cons (adj : Nat → List Nat) (f n : Nat) (l : List Nat)
    (st : (Nat → Bool) × List Nat) :
    dfsL2 adj f (n :: l) st =
      dfsL2 adj f l (if st.1 n then st else dfs2 adj f n st) := rfl

theorem dfsBundle_trans {st st₁ st₂ : (Nat → Bool) × List Nat} {t₁ t₂ : List Nat}
    (h₁ : DfsBundle st st₁ t₁) (h₂ : DfsBundle st₁ st₂ t₂) :
    DfsBundle st st₂ (t₁ ++ t₂) := by
  obtain ⟨hs₁, hv₁, hu₁, hn₁⟩ := h₁
  obtain ⟨hs₂, hv₂, hu₂, hn₂⟩ := h₂
  refine ⟨by rw [hs₂, hs₁, List.append_assoc], ?_, ?_, ?_⟩
  · intro w
    rw [hv₂ w, hv₁ w, List.mem_append]
    tauto
  · intro w hw
    rcases List.mem_append.mp hw with h | h
    · exact hu₁ w h
    · have := hu₂ w h
      rcases Bool.eq_false_or_eq_true (st.1 w) with h0 | h0
      · exact absurd ((hv₁ w).mpr (Or.inl h0)) (by rw [this]; simp)
      · exact h0
  · refine hn₁.append hn₂ ?_
    intro w hw₁ hw₂
    have hfalse := hu₂ w hw₂
    have htrue := (hv₁ w).mpr (Or.inr hw₁)
    rw [htrue] at hfalse
    cases hfalse

theorem dfsL1_bundle_of {adj : Nat → List Nat} {f : Nat}
    (hd : ∀ v st, st.1 v = false → ∃ t, DfsBundle st (dfs1 adj f v st) t) :
    ∀ (l : List Nat) (st : (Nat → Bool) × List Nat),
      ∃ t, DfsBundle st (dfsL1 adj f l st) t := by
  intro l
  induction l with
  | nil =>
    intro st
    refine ⟨[], ?_, ?_, by simp, List.nodup_nil⟩
    · rw [dfsL1_nil]; simp
    · intro w; rw [dfsL1_nil]; simp
  | cons n l ih =>
    intro st
    rw [dfsL1_cons]
    by_cases hn : st.1 n = true
    · rw [if_pos hn]
      exact ih st
    · rw [if_neg (by simpa using hn)]
      obtain ⟨t₁, h₁⟩ := hd n st (by simpa using hn)
      obtain ⟨t₂, h₂⟩ := ih (dfs1 adj f n st)
      exact ⟨t₁ ++ t₂, dfsBundle_trans h₁ h₂⟩

theorem dfs1_bundle (adj : Nat → List Nat) :
    ∀ (f : Nat) (v : Nat) (st : (Nat → Bool) × List Nat), st.1 v = false →
      ∃ t, DfsBundle st (dfs1 adj f v st) t := by
  intro f
  induction f with
  | zero =>
    intro v st _
    refine ⟨[], ?_, ?_, by simp, List.nodup_nil⟩
    · rw [dfs1_zero]; simp
    · intro w; rw [dfs1_zero]; simp
  | succ f ih =>
    intro v st hv
    rw [dfs1_succ]
    obtain ⟨tl, hs, hvis, hunv, hnd⟩ := dfsL1_bundle_of ih (adj v) (Mark v st.1, st.2)
    refine ⟨tl ++ [v], ?_, ?_, ?_, ?_⟩
    · simp only at hs ⊢
      rw [hs, List.append_assoc]
    · intro w
      simp only at hvis ⊢
      rw [hvis w]
      simp only [Mark]
      by_cases hw : w = v <;> simp [hw]
    · intro w hw
      rcases List.mem_append.mp hw with h | h
      · have := hunv w h
        simp only [Mark] at this
        by_cases hw0 : w = v
        · rw [hw0] at this; simp at this
        · rwa [if_neg hw0] at this
      · rw [List.mem_singleton] at h
        rwa [h]
    · refine hnd.append (List.nodup_singleton v) ?_
      intro w hw₁ hw₂
      rw [List.mem_singleton] at hw₂
      subst hw₂
      have := hunv w hw₁
      simp only [Mark] at this
      simp at this

theorem dfsL2_bundle_of {adj : Nat → List Nat} {f : Nat}
    (hd : ∀ v st, st.1 v = false → ∃ t, DfsBundle st (dfs2 adj f v st) t) :
    ∀ (l : List Nat) (st : (Nat → Bool) × List Nat),
      ∃ t, DfsBundle st (dfsL2 adj f l st) t := by
  intro l
  induction l with
  | nil =>
    intro st
    refine ⟨[], ?_, ?_, by simp, List.nodup_nil⟩
    · rw [dfsL2_nil]; simp
    · intro w; rw [dfsL2_nil]; simp
  | cons n l ih =>
    intro st
    rw [dfsL2_cons]
    by_cases hn : st.1 n = true
    · rw [if_pos hn]
      exact ih st
    · rw [if_neg (by simpa using hn)]
      obtain ⟨t₁, h₁⟩ := hd n st (by simpa using hn)
      obtain ⟨t₂, h₂⟩ := ih (dfs2 adj f n st)
      exact ⟨t₁ ++ t₂, dfsBundle_trans h₁ h₂⟩

theorem dfs2_bundle (adj : Nat → List Nat) :
    ∀ (f : Nat) (v : Nat) (st : (Nat → Bool) × List Nat), st.1 v = false →
      ∃ t, DfsBundle st (dfs2 adj f v st) t := by
  intro f
  induction f with
  | zero =>
    intro v st _
    refine ⟨[], ?_, ?_, by simp, List.nodup_nil⟩
    · rw [dfs2_zero]; simp
    · intro w; rw [dfs2_zero]; simp
  | succ f ih =>
    intro v st hv
    rw [dfs2_succ]
    obtain ⟨tl, hs, hvis, hunv, hnd⟩ := dfsL2_bundle_of ih (adj v) (Mark v st.1, st.2 ++ [v])
    refine ⟨v :: tl, ?_, ?_, ?_, ?_⟩
    · simp only at hs ⊢
      rw [hs, List.append_assoc]
      rfl
    · intro w
      simp only at hvis ⊢
      rw [hvis w]
      simp only [Mark]
      by_cases hw : w = v <;> simp [hw]
    · intro w hw
      rcases List.mem_cons.mp hw with h | h
      · rwa [h]
      · have := hunv w h
        simp only [Mark] at this
        by_cases hw0 : w = v
        · rw [hw0] at this; simp at this
        · rwa [if_neg hw0] at this
    · rw [List.nodup_cons]
      refine ⟨?_, hnd⟩
      intro hvtl
      have := hunv v hvtl
      simp only [Mark] at this
      simp at this

/-! ## Fuel accounting and visited-set lemmas -/

theorem mem_unvis {N : Nat} {vis : Nat → Bool} {w : Nat} :
    w ∈ unvis N vis ↔ w < N ∧ vis w = false := by
  simp [unvis]

theorem unvis_mark (N : Nat) (vis : Nat → Bool) (v : Nat) :
    unvis N (Mark v vis) = (unvis N vis).erase v := by
  ext w
  rw [mem_unvis, Finset.mem_erase, mem_unvis]
  simp only [Mark]
  by_cases hw : w = v <;> simp [hw]

theorem card_unvis_mark_lt {N : Nat} {vis : Nat → Bool} {v : Nat}
    (hv : v < N) (hf : vis v = false) :
    (unvis N (Mark v vis)).card < (unvis N vis).card := by
  rw [unvis_mark]
  exact Finset.card_erase_lt_of_mem (mem_unvis.mpr ⟨hv, hf⟩)

theorem vis_false_anti {visS visB : Nat → Bool} (h : ∀ w, visS w = true → visB w = true)
    {x : Nat} (hx : visB x = false) : visS x = false := by
  cases h0 : visS x
  · rfl
  · rw [h x h0] at hx
    cases hx

theorem card_unvis_le_of_mono {N : Nat} {vis vis' : Nat → Bool}
    (h : ∀ w, vis w = true → vis' w = true) :
    (unvis N vis').card ≤ (unvis N vis).card := by
  refine Finset.card_le_card ?_
  intro w hw
  obtain ⟨h1, h2⟩ := mem_unvis.mp hw
  exact mem_unvis.mpr ⟨h1, vis_false_anti h h2⟩

theorem card_unvis_pos {N : Nat} {vis : Nat → Bool} {v : Nat}
    (hv : v < N) (hf : vis v = false) : 0 < (unvis N vis).card :=
  Finset.card_pos.mpr ⟨v, mem_unvis.mpr ⟨hv, hf⟩⟩

theorem dfsL1_vis_mono (adj : Nat → List Nat) (f : Nat) (l : List Nat)
    (st : (Nat → Bool) × List Nat) {w : Nat} (h : st.1 w = true) :
    (dfsL1 adj f l st).1 w = true := by
  obtain ⟨t, _, hvis, _, _⟩ := dfsL1_bundle_of (dfs1_bundle adj f) l st
  exact (hvis w).mpr (Or.inl h)

theorem dfsL2_vis_mono (adj : Nat → List Nat) (f : Nat) (l : List Nat)
    (st : (Nat → Bool) × List Nat) {w : Nat} (h : st.1 w = true) :
    (dfsL2 adj f l st).1 w = true := by
  obtain ⟨t, _, hvis, _, _⟩ := dfsL2_bundle_of (dfs2_bundle adj f) l st
  exact (hvis w).mpr (Or.inl h)

theorem dfs1_vis_mono (adj : Nat → List Nat) {f : Nat} (v : Nat)
    (st : (Nat → Bool) × List Nat) {w : Nat} (h : st.1 w = true) :
    (dfs1 adj f v st).1 w = true := by
  cases f with
  | zero => rw [dfs1_zero]; exact h
  | succ f =>
    rw [dfs1_succ]
    refine dfsL1_vis_mono adj f (adj v) _ ?_
    simp only [Mark]
    by_cases hw : w = v <;> simp [hw, h]

theorem dfs2_vis_mono (adj : Nat → List Nat) {f : Nat} (v : Nat)
    (st : (Nat → Bool) × List Nat) {w : Nat} (h : st.1 w = true) :
    (dfs2 adj f v st).1 w = true := by
  cases f with
  | zero => rw [dfs2_zero]; exact h
  | succ f =>
    rw [dfs2_succ]
    refine dfsL2_vis_mono adj f (adj v) _ ?_
    simp only [Mark]
    by_cases hw : w = v <;> simp [hw, h]

theorem dfs1_marks_root (adj : Nat → List Nat) {f : Nat} (v : Nat)
    (st : (Nat → Bool) × List Nat) (hf : 0 < f) : (dfs1 adj f v st).1 v = true := by
  cases f with
  | zero => cases hf
  | succ f =>
    rw [dfs1_succ]
    exact dfsL1_vis_mono adj f (adj v) _ (by simp [Mark])

theorem dfs2_marks_root (adj : Nat → List Nat) {f : Nat} (v : Nat)
    (st : (Nat → Bool) × List Nat) (hf : 0 < f) : (dfs2 adj f v st).1 v = true := by
  cases f with
  | zero => cases hf
  | succ f =>
    rw [dfs2_succ]
    exact dfsL2_vis_mono adj f (adj v) _ (by simp [Mark])

/-! ## DFS: every finished vertex has all successors visited (F1) -/

theorem dfsL1_F1_of {adj : Nat → List Nat} {N f : Nat}
    (ihF1 : ∀ v st, v < N → st.1 v = false → (unvis N st.1).card ≤ f →
      ∀ u, st.1 u = false → (dfs1 adj f v st).1 u = true →
        ∀ w ∈ adj u, (dfs1 adj f v st).1 w = true) :
    ∀ (l : List Nat) (st : (Nat → Bool) × List Nat),
      (∀ n ∈ l, n < N) → (unvis N st.1).card ≤ f →
      ((∀ u, st.1 u = false → (dfsL1 adj f l st).1 u = true →
          ∀ w ∈ adj u, (dfsL1 adj f l st).1 w = true) ∧
       (∀ n ∈ l, (dfsL1 adj f l st).1 n = true)) := by
  intro l
  induction l with
  | nil =>
    intro st _ _
    refine ⟨?_, by simp⟩
    intro u hu hu2
    rw [dfsL1_nil] at hu2
    rw [hu2] at hu
    cases hu
  | cons n l ih =>
    intro st hlN hcard
    by_cases hn : st.1 n = true
    · rw [dfsL1_cons, if_pos hn]
      obtain ⟨ihA, ihB⟩ := ih st (fun x hx => hlN x (by simp [hx])) hcard
      refine ⟨ihA, ?_⟩
      intro m hm
      rcases List.mem_cons.mp hm with h | h
      · subst h
        exact dfsL1_vis_mono adj f l st hn
      · exact ihB m h
    · have hnf : st.1 n = false := by simpa using hn
      rw [dfsL1_cons, if_neg (by simp [hnf])]
      have hnN : n < N := hlN n (by simp)
      obtain ⟨t₁, hs₁, hvis₁, hunv₁, hnd₁⟩ := dfs1_bundle adj f n st hnf
      have hmono₁ : ∀ w, st.1 w = true → (dfs1 adj f n st).1 w = true :=
        fun w hw => (hvis₁ w).mpr (Or.inl hw)
      have hcard₁ : (unvis N (dfs1 adj f n st).1).card ≤ f :=
        le_trans (card_unvis_le_of_mono hmono₁) hcard
      have hF1first := ihF1 n st hnN hnf hcard
      have hroot : (dfs1 adj f n st).1 n = true :=
        dfs1_marks_root adj n st (lt_of_lt_of_le (card_unvis_pos hnN hnf) hcard)
      obtain ⟨ihA, ihB⟩ := ih (dfs1 adj f n st) (fun x hx => hlN x (by simp [hx])) hcard₁
      refine ⟨?_, ?_⟩
      · intro u hu hu2 w hw
        cases hu1 : (dfs1 adj f n st).1 u
        · exact ihA u hu1 hu2 w hw
        · exact dfsL1_vis_mono adj f l _ (hF1first u hu hu1 w hw)
      · intro m hm
        rcases List.mem_cons.mp hm with h | h
        · subst h
          exact dfsL1_vis_mono adj f l _ hroot
        · exact ihB m h

theorem dfs1_F1 {adj : Nat → List Nat} {N : Nat} (hadj : WfAdj N adj) :
    ∀ (f : Nat) (v : Nat) (st : (Nat → Bool) × List Nat),
      v < N → st.1 v = false → (unvis N st.1).card ≤ f →
      ∀ u, st.1 u = false → (dfs1 adj f v st).1 u = true →
        ∀ w ∈ adj u, (dfs1 adj f v st).1 w = true := by
  intro f
  induction f with
  | zero =>
    intro v st hvN hv hcard
    exact absurd hcard (by have := card_unvis_pos hvN hv; omega)
  | succ f ih =>
    intro v st hvN hv hcard u hu hu2 w hw
    rw [dfs1_succ] at hu2 ⊢
    have hlN : ∀ n ∈ adj v, n < N := fun n hn => (hadj v n hn).2
    have hcard2 : (unvis N (Mark v st.1)).card ≤ f := by
      have := card_unvis_mark_lt hvN hv
      omega
    obtain ⟨loopF1, loopMem⟩ := dfsL1_F1_of ih (adj v) (Mark v st.1, st.2) hlN hcard2
    by_cases huv : u = v
    · subst huv
      exact loopMem w hw
    · refine loopF1 u ?_ hu2 w hw
      simp [Mark, huv, hu]

/-! ## DFS soundness: new visits are reachable through unvisited vertices -/

theorem ReachA_anti {adj : Nat → List Nat} {visS visB : Nat → Bool}
    (h : ∀ w, visS w = true → visB w = true) {a b : Nat} :
    ReachA adj visB a b → ReachA adj visS a b :=
  Relation.ReflTransGen.mono
    (fun _ _ hxy => ⟨hxy.1, vis_false_anti h hxy.2.1, vis_false_anti h hxy.2.2⟩)

theorem dfsL1_sound_of {adj : Nat → List Nat} {f : Nat}
    (hd : ∀ v st, st.1 v = false →
      ∀ w, (dfs1 adj f v st).1 w = true → st.1 w = true ∨ ReachA adj st.1 v w) :
    ∀ (l : List Nat) (st : (Nat → Bool) × List Nat) (vis₀ : Nat → Bool) (v : Nat),
      vis₀ v = false →
      (∀ n ∈ l, n ∈ adj v) →
      (∀ x, vis₀ x = true → st.1 x = true) →
      (∀ x, st.1 x = true → vis₀ x = true ∨ ReachA adj vis₀ v x) →
      ∀ w, (dfsL1 adj f l st).1 w = true → vis₀ w = true ∨ ReachA adj vis₀ v w := by
  intro l
  induction l with
  | nil =>
    intro st vis₀ v _ _ _ hinv w hw
    rw [dfsL1_nil] at hw
    exact hinv w hw
  | cons n l ih =>
    intro st vis₀ v hv hl hsup hinv w hw
    rw [dfsL1_cons] at hw
    by_cases hn : st.1 n = true
    · rw [if_pos hn] at hw
      exact ih st vis₀ v hv (fun x hx => hl x (by simp [hx])) hsup hinv w hw
    · have hnf : st.1 n = false := by simpa using hn
      rw [if_neg (by simp [hnf])] at hw
      refine ih (dfs1 adj f n st) vis₀ v hv (fun x hx => hl x (by simp [hx])) ?_ ?_ w hw
      · intro x hx
        exact dfs1_vis_mono adj n st (hsup x hx)
      · intro x hx
        rcases hd n st hnf x hx with h1 | h1
        · exact hinv x h1
        · right
          refine Relation.ReflTransGen.head ⟨hl n (by simp), hv, vis_false_anti hsup hnf⟩ ?_
          exact ReachA_anti hsup h1

theorem dfs1_sound (adj : Nat → List Nat) :
    ∀ (f : Nat) (v : Nat) (st : (Nat → Bool) × List Nat), st.1 v = false →
      ∀ w, (dfs1 adj f v st).1 w = true → st.1 w = true ∨ ReachA adj st.1 v w := by
  intro f
  induction f with
  | zero =>
    intro v st _ w hw
    rw [dfs1_zero] at hw
    exact Or.inl hw
  | succ f ih =>
    intro v st hv w hw
    rw [dfs1_succ] at hw
    refine dfsL1_sound_of ih (adj v) (Mark v st.1, st.2) st.1 v hv (fun n hn => hn) ?_ ?_ w hw
    · intro x hx
      simp only [Mark]
      by_cases hxv : x = v <;> simp [hxv, hx]
    · intro x hx
      simp only [Mark] at hx
      by_cases hxv : x = v
      · subst hxv
        exact Or.inr Relation.ReflTransGen.refl
      · rw [if_neg hxv] at hx
        exact Or.inl hx

/-! ## DFS completeness: everything reachable through unvisited is visited -/

theorem dfs1_complete {adj : Nat → List Nat} {N : Nat} (hadj : WfAdj N adj)
    {f v : Nat} (st : (Nat → Bool) × List Nat) (hvN : v < N) (hv : st.1 v = false)
    (hcard : (unvis N st.1).card ≤ f) :
    ∀ w, ReachA adj st.1 v w → (dfs1 adj f v st).1 w = true := by
  intro w hw
  induction hw with
  | refl =>
    exact dfs1_marks_root adj v st (lt_of_lt_of_le (card_unvis_pos hvN hv) hcard)
  | @tail b c hpath hstep ih =>
    obtain ⟨hbc, hb, hc⟩ := hstep
    exact dfs1_F1 hadj f v st hvN hv hcard b hb ih c hbc

/-! ## The same facts for the pass-2 DFS -/

theorem dfsL2_F1_of {adj : Nat → List Nat} {N f : Nat}
    (ihF1 : ∀ v st, v < N → st.1 v = false → (unvis N st.1).card ≤ f →
      ∀ u, st.1 u = false → (dfs2 adj f v st).1 u = true →
        ∀ w ∈ adj u, (dfs2 adj f v st).1 w = true) :
    ∀ (l : List Nat) (st : (Nat → Bool) × List Nat),
      (∀ n ∈ l, n < N) → (unvis N st.1).card ≤ f →
      ((∀ u, st.1 u = false → (dfsL2 adj f l st).1 u = true →
          ∀ w ∈ adj u, (dfsL2 adj f l st).1 w = true) ∧
       (∀ n ∈ l, (dfsL2 adj f l st).1 n = true)) := by
  intro l
  induction l with
  | nil =>
    intro st _ _
    refine ⟨?_, by simp⟩
    intro u hu hu2
    rw [dfsL2_nil] at hu2
    rw [hu2] at hu
    cases hu
  | cons n l ih =>
    intro st hlN hcard
    by_cases hn : st.1 n = true
    · rw [dfsL2_cons, if_pos hn]
      obtain ⟨ihA, ihB⟩ := ih st (fun x hx => hlN x (by simp [hx])) hcard
      refine ⟨ihA, ?_⟩
      intro m hm
      rcases List.mem_cons.mp hm with h | h
      · subst h
        exact dfsL2_vis_mono adj f l st hn
      · exact ihB m h
    · have hnf : st.1 n = false := by simpa using hn
      rw [dfsL2_cons, if_neg (by simp [hnf])]
      have hnN : n < N := hlN n (by simp)
      obtain ⟨t₁, hs₁, hvis₁, hunv₁, hnd₁⟩ := dfs2_bundle adj f n st hnf
      have hmono₁ : ∀ w, st.1 w = true → (dfs2 adj f n st).1 w = true :=
        fun w hw => (hvis₁ w).mpr (Or.inl hw)
      have hcard₁ : (unvis N (dfs2 adj f n st).1).card ≤ f :=
        le_trans (card_unvis_le_of_mono hmono₁) hcard
      have hF1first := ihF1 n st hnN hnf hcard
      have hroot : (dfs2 adj f n st).1 n = true :=
        dfs2_marks_root adj n st (lt_of_lt_of_le (card_unvis_pos hnN hnf) hcard)
      obtain ⟨ihA, ihB⟩ := ih (dfs2 adj f n st) (fun x hx => hlN x (by simp [hx])) hcard₁
      refine ⟨?_, ?_⟩
      · intro u hu hu2 w hw
        cases hu1 : (dfs2 adj f n st).1 u
        · exact ihA u hu1 hu2 w hw
        · exact dfsL2_vis_mono adj f l _ (hF1first u hu hu1 w hw)
      · intro m hm
        rcases List.mem_cons.mp hm with h | h
        · subst h
          exact dfsL2_vis_mono adj f l _ hroot
        · exact ihB m h

theorem dfs2_F1 {adj : Nat → List Nat} {N : Nat} (hadj : WfAdj N adj) :
    ∀ (f : Nat) (v : Nat) (st : (Nat → Bool) × List Nat),
      v < N → st.1 v = false → (unvis N st.1).card ≤ f →
      ∀ u, st.1 u = false → (dfs2 adj f v st).1 u = true →
        ∀ w ∈ adj u, (dfs2 adj f v st).1 w = true := by
  intro f
  induction f with
  | zero =>
    intro v st hvN hv hcard
    exact absurd hcard (by have := card_unvis_pos hvN hv; omega)
  | succ f ih =>
    intro v st hvN hv hcard u hu hu2 w hw
    rw [dfs2_succ] at hu2 ⊢
    have hlN : ∀ n ∈ adj v, n < N := fun n hn => (hadj v n hn).2
    have hcard2 : (unvis N (Mark v st.1)).card ≤ f := by
      have := card_unvis_mark_lt hvN hv
      omega
    obtain ⟨loopF1, loopMem⟩ := dfsL2_F1_of ih (adj v) (Mark v st.1, st.2 ++ [v]) hlN hcard2
    by_cases huv : u = v
    · subst huv
      exact loopMem w hw
    · refine loopF1 u ?_ hu2 w hw
      simp [Mark, huv, hu]

theorem dfsL2_sound_of {adj : Nat → List Nat} {f : Nat}
    (hd : ∀ v st, st.1 v = false →
      ∀ w, (dfs2 adj f v st).1 w = true → st.1 w = true ∨ ReachA adj st.1 v w) :
    ∀ (l : List Nat) (st : (Nat → Bool) × List Nat) (vis₀ : Nat → Bool) (v : Nat),
      vis₀ v = false →
      (∀ n ∈ l, n ∈ adj v) →
      (∀ x, vis₀ x = true → st.1 x = true) →
      (∀ x, st.1 x = true → vis₀ x = true ∨ ReachA adj vis₀ v x) →
      ∀ w, (dfsL2 adj f l st).1 w = true → vis₀ w = true ∨ ReachA adj vis₀ v w := by
  intro l
  induction l with
  | nil =>
    intro st vis₀ v _ _ _ hinv w hw
    rw [dfsL2_nil] at hw
    exact hinv w hw
  | cons n l ih =>
    intro st vis₀ v hv hl hsup hinv w hw
    rw [dfsL2_cons] at hw
    by_cases hn : st.1 n = true
    · rw [if_pos hn] at hw
      exact ih st vis₀ v hv (fun x hx => hl x (by simp [hx])) hsup hinv w hw
    · have hnf : st.1 n = false := by simpa using hn
      rw [if_neg (by simp [hnf])] at hw
      refine ih (dfs2 adj f n st) vis₀ v hv (fun x hx => hl x (by simp [hx])) ?_ ?_ w hw
      · intro x hx
        exact dfs2_vis_mono adj n st (hsup x hx)
      · intro x hx
        rcases hd n st hnf x hx with h1 | h1
        · exact hinv x h1
        · right
          refine Relation.ReflTransGen.head ⟨hl n (by simp), hv, vis_false_anti hsup hnf⟩ ?_
          exact ReachA_anti hsup h1

theorem dfs2_sound (adj : Nat → List Nat) :
    ∀ (f : Nat) (v : Nat) (st : (Nat → Bool) × List Nat), st.1 v = false →
      ∀ w, (dfs2 adj f v st).1 w = true → st.1 w = true ∨ ReachA adj st.1 v w := by
  intro f
  induction f with
  | zero =>
    intro v st _ w hw
    rw [dfs2_zero] at hw
    exact Or.inl hw
  | succ f ih =>
    intro v st hv w hw
    rw [dfs2_succ] at hw
    refine dfsL2_sound_of ih (adj v) (Mark v st.1, st.2 ++ [v]) st.1 v hv (fun n hn => hn) ?_ ?_ w hw
    · intro x hx
      simp only [Mark]
      by_cases hxv : x = v <;> simp [hxv, hx]
    · intro x hx
      simp only [Mark] at hx
      by_cases hxv : x = v
      · subst hxv
        exact Or.inr Relation.ReflTransGen.refl
      · rw [if_neg hxv] at hx
        exact Or.inl hx

theorem dfs2_complete {adj : Nat → List Nat} {N : Nat} (hadj : WfAdj N adj)
    {f v : Nat} (st : (Nat → Bool) × List Nat) (hvN : v < N) (hv : st.1 v = false)
    (hcard : (unvis N st.1).card ≤ f) :
    ∀ w, ReachA adj st.1 v w → (dfs2 adj f v st).1 w = true := by
  intro w hw
  induction hw with
  | refl =>
    exact dfs2_marks_root adj v st (lt_of_lt_of_le (card_unvis_pos hvN hv) hcard)
  | @tail b c hpath hstep ih =>
    obtain ⟨hbc, hb, hc⟩ := hstep
    exact dfs2_F1 hadj f v st hvN hv hcard b hb ih c hbc

/-! ## Ordering infrastructure: positions, gray escapes -/

theorem Reach_of_ReachA {adj : Nat → List Nat} {vis : Nat → Bool} {a b : Nat}
    (h : ReachA adj vis a b) : Reach adj a b :=
  Relation.ReflTransGen.mono (fun _ _ hxy => hxy.1) h

theorem reach_lt {adj : Nat → List Nat} {N : Nat} (hadj : WfAdj N adj) {a b : Nat}
    (h : Reach adj a b) (ha : a < N) : b < N := by
  induction h with
  | refl => exact ha
  | tail _ hstep ih => exact (hadj _ _ hstep).2

theorem afterIn_append_left {l₂ : List Nat} {q w : Nat} (l₁ : List Nat)
    (h : AfterIn l₂ q w) : AfterIn (l₁ ++ l₂) q w := by
  obtain ⟨a, b, hab, hq, hw⟩ := h
  exact ⟨l₁ ++ a, b, by rw [hab, List.append_assoc], by simp [hq], hw⟩

theorem afterIn_append_right {l₁ : List Nat} {q w : Nat} (l₂ : List Nat)
    (h : AfterIn l₁ q w) : AfterIn (l₁ ++ l₂) q w := by
  obtain ⟨a, b, hab, hq, hw⟩ := h
  exact ⟨a, b ++ l₂, by rw [hab, List.append_assoc], hq, by simp [hw]⟩

theorem afterIn_of_mem_mem {t₁ t₂ : List Nat} {q w : Nat}
    (hq : q ∈ t₁) (hw : w ∈ t₂) : AfterIn (t₁ ++ t₂) q w :=
  ⟨t₁, t₂, rfl, hq, hw⟩

theorem escape_to_gray {adj : Nat → List Nat} {Γ : List Nat} {vis : Nat → Bool}
    (hG : GrayOK adj Γ vis) {y : Nat} (hy : vis y = false) :
    ∀ {x : Nat}, Reach adj x y → vis x = true → ∃ g ∈ Γ, Reach adj x g := by
  intro x hxy
  induction hxy using Relation.ReflTransGen.head_induction_on with
  | refl =>
    intro hx
    rw [hx] at hy
    cases hy
  | @head a c hstep htail ih =>
    intro hx
    by_cases haΓ : a ∈ Γ
    · exact ⟨a, haΓ, Relation.ReflTransGen.refl⟩
    · obtain ⟨g, hg, hr⟩ := ih (hG a hx haΓ c hstep)
      exact ⟨g, hg, Relation.ReflTransGen.head hstep hr⟩

theorem dfs1_grayOK {adj : Nat → List Nat} {N : Nat} (hadj : WfAdj N adj)
    {f v : Nat} {st : (Nat → Bool) × List Nat} {Γ : List Nat}
    (hvN : v < N) (hv : st.1 v = false) (hcard : (unvis N st.1).card ≤ f)
    (hG : GrayOK adj Γ st.1) : GrayOK adj Γ (dfs1 adj f v st).1 := by
  intro x hx hxΓ w hw
  cases hx0 : st.1 x
  · exact dfs1_F1 hadj f v st hvN hv hcard x hx0 hx w hw
  · exact dfs1_vis_mono adj v st (hG x hx0 hxΓ w hw)

theorem dfsL1_sound_roots {adj : Nat → List Nat} {f : Nat} :
    ∀ (l : List Nat) (st : (Nat → Bool) × List Nat) (w : Nat),
      st.1 w = false → (dfsL1 adj f l st).1 w = true → ∃ n ∈ l, Reach adj n w := by
  intro l
  induction l with
  | nil =>
    intro st w hw hw2
    rw [dfsL1_nil] at hw2
    rw [hw2] at hw
    cases hw
  | cons n l ih =>
    intro st w hw hw2
    rw [dfsL1_cons] at hw2
    by_cases hn : st.1 n = true
    · rw [if_pos hn] at hw2
      obtain ⟨m, hm, hr⟩ := ih st w hw hw2
      exact ⟨m, by simp [hm], hr⟩
    · have hnf : st.1 n = false := by simpa using hn
      rw [if_neg (by simp [hnf])] at hw2
      cases hw1 : (dfs1 adj f n st).1 w
      · obtain ⟨m, hm, hr⟩ := ih _ w hw1 hw2
        exact ⟨m, by simp [hm], hr⟩
      · rcases dfs1_sound adj f n st hnf w hw1 with h1 | h1
        · rw [h1] at hw
          cases hw
        · exact ⟨n, by simp, Reach_of_ReachA h1⟩

theorem pass1_eq_dfsL1 (adj : Nat → List Nat) (fuel : Nat) :
    ∀ (l : List Nat) (st : (Nat → Bool) × List Nat),
      pass1 adj fuel l st = dfsL1 adj fuel l st := by
  intro l
  induction l with
  | nil => intro st; rfl
  | cons n l ih =>
    intro st
    rw [dfsL1_cons]
    show (if st.1 n then pass1 adj fuel l st else pass1 adj fuel l (dfs1 adj fuel n st)) = _
    by_cases hn : st.1 n = true
    · rw [if_pos hn, if_pos hn, ih]
    · rw [if_neg (by simpa using hn), if_neg (by simpa using hn), ih]

/-! ## The DFS ordering lemma

For any two newly-visited vertices `p, q` of one DFS call, if `p` reaches
`q` then either `q` reaches back, or `p` reaches a gray vertex (a DFS call
still in progress), or some vertex of `p`'s strongly connected component
is pushed strictly after `q`. -/

theorem dfsL1_ord_of {adj : Nat → List Nat} {N f : Nat} (hadj : WfAdj N adj)
    (ihOrd : ∀ (v : Nat) (st : (Nat → Bool) × List Nat) (Γ : List Nat),
      v < N → st.1 v = false → (unvis N st.1).card ≤ f → GrayOK adj Γ st.1 →
      ∀ t, DfsBundle st (dfs1 adj f v st) t →
      ∀ p q, p ∈ t → q ∈ t → Reach adj p q →
        Reach adj q p ∨ (∃ g ∈ Γ, Reach adj p g) ∨
          (∃ w, Reach adj p w ∧ Reach adj w p ∧ AfterIn t q w)) :
    ∀ (l : List Nat) (st : (Nat → Bool) × List Nat) (Γ : List Nat),
      (∀ n ∈ l, n < N) → (unvis N st.1).card ≤ f → GrayOK adj Γ st.1 →
      ∀ t, DfsBundle st (dfsL1 adj f l st) t →
      ∀ p q, p ∈ t → q ∈ t → Reach adj p q →
        Reach adj q p ∨ (∃ g ∈ Γ, Reach adj p g) ∨
          (∃ w, Reach adj p w ∧ Reach adj w p ∧ AfterIn t q w) := by
  intro l
  induction l with
  | nil =>
    intro st Γ _ _ _ t hb p q hp hq _
    obtain ⟨hs, _, _, _⟩ := hb
    rw [dfsL1_nil] at hs
    have ht : t = [] := by
      have h0 : st.2 ++ ([] : List Nat) = st.2 ++ t := by
        rw [List.append_nil]; exact hs
      exact (List.append_cancel_left h0).symm
    subst ht
    cases hp
  | cons n ls ih =>
    intro st Γ hlN hcard hG t hb p q hp hq hpq
    by_cases hn : st.1 n = true
    · rw [dfsL1_cons, if_pos hn] at hb
      exact ih st Γ (fun x hx => hlN x (by simp [hx])) hcard hG t hb p q hp hq hpq
    · have hnf : st.1 n = false := by simpa using hn
      rw [dfsL1_cons, if_neg (by simp [hnf])] at hb
      obtain ⟨t₁, hb₁⟩ := dfs1_bundle adj f n st hnf
      obtain ⟨t₂, hb₂⟩ := dfsL1_bundle_of (dfs1_bundle adj f) ls (dfs1 adj f n st)
      have ht : t = t₁ ++ t₂ := by
        have hsA := hb.1
        have hs1 := hb₁.1
        have hs2 := hb₂.1
        rw [hs1, List.append_assoc] at hs2
        rw [hsA] at hs2
        exact List.append_cancel_left hs2
      subst ht
      have hnN : n < N := hlN n (by simp)
      have hcard₁ : (unvis N (dfs1 adj f n st).1).card ≤ f :=
        le_trans (card_unvis_le_of_mono (fun w hw => (hb₁.2.1 w).mpr (Or.inl hw))) hcard
      have hG₁ : GrayOK adj Γ (dfs1 adj f n st).1 := dfs1_grayOK hadj hnN hnf hcard hG
      rcases List.mem_append.mp hp with hp1 | hp2
      · rcases List.mem_append.mp hq with hq1 | hq2
        · rcases ihOrd n st Γ hnN hnf hcard hG t₁ hb₁ p q hp1 hq1 hpq with h | h | ⟨w, h1, h2, h3⟩
          · exact Or.inl h
          · exact Or.inr (Or.inl h)
          · exact Or.inr (Or.inr ⟨w, h1, h2, afterIn_append_right t₂ h3⟩)
        · have hpvis : (dfs1 adj f n st).1 p = true := (hb₁.2.1 p).mpr (Or.inr hp1)
          have hqunv : (dfs1 adj f n st).1 q = false := hb₂.2.2.1 q hq2
          obtain ⟨g, hg, hr⟩ := escape_to_gray hG₁ hqunv hpq hpvis
          exact Or.inr (Or.inl ⟨g, hg, hr⟩)
      · rcases List.mem_append.mp hq with hq1 | hq2
        · exact Or.inr (Or.inr ⟨p, Relation.ReflTransGen.refl, Relation.ReflTransGen.refl,
            afterIn_of_mem_mem hq1 hp2⟩)
        · rcases ih (dfs1 adj f n st) Γ (fun x hx => hlN x (by simp [hx])) hcard₁ hG₁ t₂ hb₂
              p q hp2 hq2 hpq with h | h | ⟨w, h1, h2, h3⟩
          · exact Or.inl h
          · exact Or.inr (Or.inl h)
          · exact Or.inr (Or.inr ⟨w, h1, h2, afterIn_append_left t₁ h3⟩)

theorem dfs1_ord {adj : Nat → List Nat} {N : Nat} (hadj : WfAdj N adj) :
    ∀ (f : Nat) (v : Nat) (st : (Nat → Bool) × List Nat) (Γ : List Nat),
      v < N → st.1 v = false → (unvis N st.1).card ≤ f → GrayOK adj Γ st.1 →
      ∀ t, DfsBundle st (dfs1 adj f v st) t →
      ∀ p q, p ∈ t → q ∈ t → Reach adj p q →
        Reach adj q p ∨ (∃ g ∈ Γ, Reach adj p g) ∨
          (∃ w, Reach adj p w ∧ Reach adj w p ∧ AfterIn t q w) := by
  intro f
  induction f with
  | zero =>
    intro v st Γ hvN hv hcard
    exact absurd hcard (by have := card_unvis_pos hvN hv; omega)
  | succ f ih =>
    intro v st Γ hvN hv hcard hG t hb p q hp hq hpq
    obtain ⟨tl, hbl⟩ := dfsL1_bundle_of (dfs1_bundle adj f) (adj v) (Mark v st.1, st.2)
    have ht : t = tl ++ [v] := by
      have hsA := hb.1
      have hsl := hbl.1
      rw [dfs1_succ] at hsA
      simp only at hsA hsl
      rw [hsl, List.append_assoc] at hsA
      exact (List.append_cancel_left hsA).symm
    subst ht
    have hsound : ∀ x ∈ tl ++ [v], Reach adj v x := by
      intro x hx
      have hxvis : (dfs1 adj (f + 1) v st).1 x = true := (hb.2.1 x).mpr (Or.inr hx)
      have hxunv : st.1 x = false := hb.2.2.1 x hx
      rcases dfs1_sound adj (f + 1) v st hv x hxvis with h | h
      · rw [h] at hxunv; cases hxunv
      · exact Reach_of_ReachA h
    have hGM : GrayOK adj (v :: Γ) (Mark v st.1) := by
      intro x hx hxΓ w hw
      have hxv : ¬ x = v := fun h => hxΓ (by rw [h]; exact List.mem_cons_self _ _)
      simp only [Mark] at hx ⊢
      rw [if_neg hxv] at hx
      have hst : st.1 w = true := hG x hx (fun hmem => hxΓ (List.mem_cons_of_mem _ hmem)) w hw
      by_cases hwv : w = v <;> simp [hwv, hst]
    have hcardM : (unvis N (Mark v st.1)).card ≤ f := by
      have := card_unvis_mark_lt hvN hv
      omega
    rcases List.mem_append.mp hq with hq1 | hq2
    · rcases List.mem_append.mp hp with hp1 | hp2
      · rcases dfsL1_ord_of hadj ih (adj v) (Mark v st.1, st.2) (v :: Γ)
            (fun x hx => (hadj v x hx).2) hcardM hGM tl hbl p q hp1 hq1 hpq
          with h | ⟨g, hg, hr⟩ | ⟨w, h1, h2, h3⟩
        · exact Or.inl h
        · rcases List.mem_cons.mp hg with hgv | hgΓ
          · subst hgv
            exact Or.inr (Or.inr ⟨g, hr, hsound p (List.mem_append.mpr (Or.inl hp1)),
              afterIn_of_mem_mem hq1 (by simp)⟩)
          · exact Or.inr (Or.inl ⟨g, hgΓ, hr⟩)
        · exact Or.inr (Or.inr ⟨w, h1, h2, afterIn_append_right [v] h3⟩)
      · have hpv : p = v := by simpa using hp2
        subst hpv
        exact Or.inr (Or.inr ⟨p, Relation.ReflTransGen.refl, Relation.ReflTransGen.refl,
          afterIn_of_mem_mem hq1 (by simp)⟩)
    · have hqv : q = v := by simpa using hq2
      subst hqv
      exact Or.inl (hsound p hp)

/-! ## Pass 1 assembled -/

theorem card_unvis_le (N : Nat) (vis : Nat → Bool) : (unvis N vis).card ≤ N := by
  unfold unvis
  exact le_trans (Finset.card_filter_le _ _) (by simp)

theorem pass1_master {adj : Nat → List Nat} {N : Nat} (hadj : WfAdj N adj) :
    (∀ w, (pass1 adj N (List.range N) (fun _ => false, [])).1 w = true ↔
        w ∈ (pass1 adj N (List.range N) (fun _ => false, [])).2) ∧
    (pass1 adj N (List.range N) (fun _ => false, [])).2.Nodup ∧
    (∀ w, w ∈ (pass1 adj N (List.range N) (fun _ => false, [])).2 ↔ w < N) ∧
    (∀ p q, p ∈ (pass1 adj N (List.range N) (fun _ => false, [])).2 →
      q ∈ (pass1 adj N (List.range N) (fun _ => false, [])).2 → Reach adj p q →
      Reach adj q p ∨ ∃ w, Reach adj p w ∧ Reach adj w p ∧
        AfterIn (pass1 adj N (List.range N) (fun _ => false, [])).2 q w) := by
  rw [pass1_eq_dfsL1]
  obtain ⟨t, hb⟩ := dfsL1_bundle_of (dfs1_bundle adj N) (List.range N) (fun _ => false, [])
  have hstack : (dfsL1 adj N (List.range N) (fun _ => false, [])).2 = t := by
    have := hb.1
    simpa using this
  have hvis : ∀ w, (dfsL1 adj N (List.range N) (fun _ => false, [])).1 w = true ↔ w ∈ t := by
    intro w
    rw [hb.2.1 w]
    simp
  have hmem : ∀ w, w ∈ t ↔ w < N := by
    intro w
    constructor
    · intro hw
      obtain ⟨n, hn, hr⟩ := dfsL1_sound_roots (List.range N) (fun _ => false, []) w rfl
        ((hvis w).mpr hw)
      exact reach_lt hadj hr (List.mem_range.mp hn)
    · intro hw
      obtain ⟨_, loopMem⟩ := dfsL1_F1_of (dfs1_F1 hadj N) (List.range N) (fun _ => false, [])
        (fun n hn => List.mem_range.mp hn) (card_unvis_le N _)
      exact (hvis w).mp (loopMem w (List.mem_range.mpr hw))
  refine ⟨by rw [hstack]; exact hvis, by rw [hstack]; exact hb.2.2.2, by rw [hstack]; exact hmem, ?_⟩
  rw [hstack]
  intro p q hp hq hpq
  have hGray : GrayOK adj [] (fun _ => false : Nat → Bool) := by
    intro x hx
    cases hx
  rcases dfsL1_ord_of hadj (dfs1_ord hadj N) (List.range N) (fun _ => false, []) []
      (fun n hn => List.mem_range.mp hn) (card_unvis_le N _) hGray t hb p q hp hq hpq
    with h | ⟨g, hg, _⟩ | ⟨w, h1, h2, h3⟩
  · exact Or.inl h
  · cases hg
  · exact Or.inr ⟨w, h1, h2, h3⟩

/-! ## Pass 2 helpers -/

theorem reach_rev {adjO adjT : Nat → List Nat}
    (hrev : ∀ a b, Edge adjT a b ↔ Edge adjO b a) {a b : Nat}
    (h : Reach adjT a b) : Reach adjO b a := by
  induction h with
  | refl => exact Relation.ReflTransGen.refl
  | @tail c d hcd hstep ih =>
    exact Relation.ReflTransGen.head ((hrev c d).mp hstep) ih

theorem mem_left_of_split {A B C D : List Nat} {r : Nat} :
    A ++ B = C ++ r :: D → r ∉ A → ∀ z ∈ A, z ∈ C := by
  induction A generalizing C with
  | nil =>
    intro _ _ z hz
    cases hz
  | cons a A ih =>
    intro heq hrA z hz
    cases C with
    | nil =>
      exfalso
      apply hrA
      have ha : a = r := by
        have := congrArg (fun l => l.head?) heq
        simpa using this
      rw [ha]
      exact List.mem_cons_self _ _
    | cons c C =>
      have hac : a = c := by
        have := congrArg (fun l => l.head?) heq
        simpa using this
      have htail : A ++ B = C ++ r :: D := by
        have := congrArg (fun l => l.tail) heq
        simpa using this
      rcases List.mem_cons.mp hz with h | h
      · rw [List.mem_cons]
        left
        rw [h, hac]
      · exact List.mem_cons_of_mem _
          (ih htail (fun hr => hrA (List.mem_cons_of_mem _ hr)) z h)

theorem afterIn_done {s done P' : List Nat} {r z : Nat} (hnd : s.Nodup)
    (hsplit : s.reverse = done ++ r :: P') (h : AfterIn s r z) : z ∈ done := by
  obtain ⟨l₁, l₂, hl, hr, hz⟩ := h
  subst hl
  have hrnot : r ∉ l₂ := by
    intro hmem
    have := (List.nodup_append.mp hnd).2.2
    exact this hr hmem
  have hrev2 : l₂.reverse ++ l₁.reverse = done ++ r :: P' := by
    rw [← List.reverse_append]
    exact hsplit
  have hrnotrev : r ∉ l₂.reverse := by
    simpa using hrnot
  exact mem_left_of_split hrev2 hrnotrev z (by simpa using hz)

/-! ## Pass 2: each emitted component is exactly one SCC -/

theorem pass2_nil (adjT : Nat → List Nat) (fuel : Nat) (vis : Nat → Bool)
    (sccs : List (List Nat)) : pass2 adjT fuel [] vis sccs = (vis, sccs) := rfl

theorem pass2_cons (adjT : Nat → List Nat) (fuel v : Nat) (rest : List Nat)
    (vis : Nat → Bool) (sccs : List (List Nat)) :
    pass2 adjT fuel (v :: rest) vis sccs =
      if vis v then pass2 adjT fuel rest vis sccs
      else pass2 adjT fuel rest (dfs2 adjT fuel v (vis, [])).1
        (sccs ++ [(dfs2 adjT fuel v (vis, [])).2]) := rfl

theorem pass2_loop {adjO adjT : Nat → List Nat} {N : Nat}
    (hadjT : WfAdj N adjT)
    (hrev : ∀ a b, Edge adjT a b ↔ Edge adjO b a)
    {s : List Nat} (hnd : s.Nodup) (hsMem : ∀ w, w ∈ s ↔ w < N)
    (hord : ∀ p q, p ∈ s → q ∈ s → Reach adjO p q →
      Reach adjO q p ∨ ∃ w, Reach adjO p w ∧ Reach adjO w p ∧ AfterIn s q w) :
    ∀ (P done : List Nat) (vis : Nat → Bool) (sccs : List (List Nat)),
      s.reverse = done ++ P →
      (∀ C ∈ sccs, ∃ ρ, ρ ∈ C ∧ IsSCCOf adjO C ρ) →
      (∀ w, vis w = true ↔ ∃ C ∈ sccs, w ∈ C) →
      (∀ w ∈ done, vis w = true) →
      (∀ w, vis w = true → w < N) →
      (sccs.flatten).Nodup →
      ((∀ C ∈ (pass2 adjT N P vis sccs).2, ∃ ρ, ρ ∈ C ∧ IsSCCOf adjO C ρ) ∧
       (∀ w, (pass2 adjT N P vis sccs).1 w = true ↔
          ∃ C ∈ (pass2 adjT N P vis sccs).2, w ∈ C) ∧
       (∀ w ∈ done ++ P, (pass2 adjT N P vis sccs).1 w = true) ∧
       (∀ w, (pass2 adjT N P vis sccs).1 w = true → w < N) ∧
       ((pass2 adjT N P vis sccs).2.flatten).Nodup) := by
  intro P
  induction P with
  | nil =>
    intro done vis sccs hsplit inv1 inv2 inv3 inv4 inv5
    rw [pass2_nil]
    exact ⟨inv1, inv2, by simpa using inv3, inv4, inv5⟩
  | cons r P' ih =>
    intro done vis sccs hsplit inv1 inv2 inv3 inv4 inv5
    have hrs : r ∈ s := by
      rw [← List.mem_reverse, hsplit]
      simp
    have hrN : r < N := (hsMem r).mp hrs
    have hsplit' : s.reverse = (done ++ [r]) ++ P' := by
      rw [hsplit, List.append_assoc]
      rfl
    by_cases hvr : vis r = true
    · rw [pass2_cons, if_pos hvr]
      obtain ⟨c1, c2, c3, c4, c5⟩ := ih (done ++ [r]) vis sccs hsplit' inv1 inv2
        (by
          intro w hw
          rcases List.mem_append.mp hw with h | h
          · exact inv3 w h
          · rw [List.mem_singleton] at h
            rw [h]
            exact hvr)
        inv4 inv5
      refine ⟨c1, c2, ?_, c4, c5⟩
      intro w hw
      refine c3 w ?_
      rw [List.append_assoc]
      exact hw
    · have hvrf : vis r = false := by simpa using hvr
      rw [pass2_cons, if_neg (by simp [hvrf])]
      obtain ⟨t, hb⟩ := dfs2_bundle adjT N r (vis, []) hvrf
      have ht2 : (dfs2 adjT N r (vis, [])).2 = t := by
        have := hb.1
        simpa using this
      have hviseq : ∀ w, (dfs2 adjT N r (vis, [])).1 w = true ↔ (vis w = true ∨ w ∈ t) :=
        hb.2.1
      have htunv : ∀ w ∈ t, vis w = false := hb.2.2.1
      have htnd : t.Nodup := hb.2.2.2
      have hcard : (unvis N vis).card ≤ N := card_unvis_le N vis
      have hrt : r ∈ t := by
        have hvr2 : (dfs2 adjT N r (vis, [])).1 r = true :=
          dfs2_marks_root adjT r (vis, []) (lt_of_le_of_lt (Nat.zero_le r) hrN)
        rcases (hviseq r).mp hvr2 with h | h
        · rw [h] at hvrf; cases hvrf
        · exact h
      have htReachA : ∀ w ∈ t, ReachA adjT vis r w := by
        intro w hw
        have hwvis : (dfs2 adjT N r (vis, [])).1 w = true := (hviseq w).mpr (Or.inr hw)
        rcases dfs2_sound adjT N r (vis, []) hvrf w hwvis with h | h
        · have h2 : vis w = true := h
          rw [htunv w hw] at h2
          cases h2
        · exact h
      have htN : ∀ w ∈ t, w < N := fun w hw =>
        reach_lt hadjT (Reach_of_ReachA (htReachA w hw)) hrN
      have hsccClosed : ∀ y, SameSCC adjO r y → vis y = false := by
        intro y hy
        cases hvy : vis y
        · rfl
        · exfalso
          obtain ⟨Cj, hCj, hyCj⟩ := (inv2 y).mp hvy
          obtain ⟨ρ, hρmem, hρscc⟩ := inv1 Cj hCj
          have hρy : SameSCC adjO ρ y := (hρscc y).mp hyCj
          have hρr : SameSCC adjO ρ r :=
            ⟨hρy.1.trans hy.2, hy.1.trans hρy.2⟩
          have : r ∈ Cj := (hρscc r).mpr hρr
          have : vis r = true := (inv2 r).mpr ⟨Cj, hCj, this⟩
          rw [this] at hvrf
          cases hvrf
      have key : ∀ x, Reach adjO x r → Reach adjO r x → ReachA adjT vis r x := by
        intro x hxr
        induction hxr using Relation.ReflTransGen.head_induction_on with
        | refl => intro _; exact Relation.ReflTransGen.refl
        | @head a c hstep htail ihh =>
          intro hra
          have hrc : Reach adjO r c := Relation.ReflTransGen.tail hra hstep
          refine Relation.ReflTransGen.tail (ihh hrc) ?_
          exact ⟨(hrev c a).mpr hstep, hsccClosed c ⟨hrc, htail⟩,
            hsccClosed a ⟨hra, Relation.ReflTransGen.head hstep htail⟩⟩
      have hscc : IsSCCOf adjO t r := by
        intro w
        constructor
        · intro hw
          have hwr : Reach adjO w r := reach_rev hrev (Reach_of_ReachA (htReachA w hw))
          have hwN : w < N := htN w hw
          have hrw : Reach adjO r w := by
            by_contra hno
            rcases hord w r ((hsMem w).mpr hwN) hrs hwr with h | ⟨z, hz1, hz2, hz3⟩
            · exact hno h
            · have hzdone : z ∈ done := afterIn_done hnd hsplit hz3
              have hzvis : vis z = true := inv3 z hzdone
              obtain ⟨Cj, hCj, hzCj⟩ := (inv2 z).mp hzvis
              obtain ⟨ρ, hρmem, hρscc⟩ := inv1 Cj hCj
              have hρz : SameSCC adjO ρ z := (hρscc z).mp hzCj
              have hρw : SameSCC adjO ρ w := ⟨hρz.1.trans hz2, hz1.trans hρz.2⟩
              have hwCj : w ∈ Cj := (hρscc w).mpr hρw
              have : vis w = true := (inv2 w).mpr ⟨Cj, hCj, hwCj⟩
              rw [htunv w hw] at this
              cases this
          exact ⟨hrw, hwr⟩
        · intro hw
          have hra : ReachA adjT vis r w := key w hw.2 hw.1
          have hwvis : (dfs2 adjT N r (vis, [])).1 w = true :=
            dfs2_complete hadjT (vis, []) hrN hvrf hcard w hra
          rcases (hviseq w).mp hwvis with h | h
          · rw [hsccClosed w hw] at h; cases h
          · exact h
      rw [ht2]
      obtain ⟨c1, c2, c3, c4, c5⟩ := ih (done ++ [r]) (dfs2 adjT N r (vis, [])).1 (sccs ++ [t])
        hsplit'
        (by
          intro C hC
          rcases List.mem_append.mp hC with h | h
          · exact inv1 C h
          · rw [List.mem_singleton] at h
            subst h
            exact ⟨r, hrt, hscc⟩)
        (by
          intro w
          rw [hviseq w, inv2 w]
          simp only [List.mem_append, List.mem_singleton]
          constructor
          · rintro (⟨C, hC, hwC⟩ | hwt)
            · exact ⟨C, Or.inl hC, hwC⟩
            · exact ⟨t, Or.inr rfl, hwt⟩
          · rintro ⟨C, hC | hC, hwC⟩
            · exact Or.inl ⟨C, hC, hwC⟩
            · subst hC
              exact Or.inr hwC)
        (by
          intro w hw
          rcases List.mem_append.mp hw with h | h
          · exact (hviseq w).mpr (Or.inl (inv3 w h))
          · rw [List.mem_singleton] at h
            subst h
            exact (hviseq w).mpr (Or.inr hrt))
        (by
          intro w hw
          rcases (hviseq w).mp hw with h | h
          · exact inv4 w h
          · exact htN w h)
        (by
          rw [List.flatten_append]
          simp only [List.flatten, List.append_nil]
          refine inv5.append htnd ?_
          intro w hw₁ hw₂
          have hwvis : vis w = true := by
            rcases List.mem_flatten.mp hw₁ with ⟨C, hC, hwC⟩
            exact (inv2 w).mpr ⟨C, hC, hwC⟩
          rw [htunv w hw₂] at hwvis
          cases hwvis)
      refine ⟨c1, c2, ?_, c4, c5⟩
      intro w hw
      refine c3 w ?_
      rw [List.append_assoc]
      exact hw

/-! ## The pure Kosaraju pipeline, assembled -/

theorem kosaraju_pure {adjO adjT : Nat → List Nat} {N : Nat}
    (hadjO : WfAdj N adjO) (hadjT : WfAdj N adjT)
    (hrev : ∀ a b, Edge adjT a b ↔ Edge adjO b a) :
    (∀ C ∈ sccsPure adjO adjT N, ∃ ρ, ρ ∈ C ∧ IsSCCOf adjO C ρ) ∧
    (∀ w, w < N ↔ ∃ C ∈ sccsPure adjO adjT N, w ∈ C) ∧
    ((sccsPure adjO adjT N).flatten).Nodup := by
  obtain ⟨p1vis, p1nd, p1mem, p1ord⟩ := @pass1_master adjO N hadjO
  obtain ⟨c1, c2, c3, c4, c5⟩ := @pass2_loop adjO adjT N hadjT hrev
    ((pass1 adjO N (List.range N) (fun _ => false, [])).2) p1nd
    (fun w => (p1mem w))
    p1ord
    ((pass1 adjO N (List.range N) (fun _ => false, [])).2).reverse [] (fun _ => false) []
    (by simp)
    (by intro C hC; cases hC)
    (by intro w; constructor
        · intro h; cases h
        · rintro ⟨C, hC, _⟩; cases hC)
    (by intro w hw; cases hw)
    (by intro w hw; cases hw)
    (by simp)
  refine ⟨c1, ?_, c5⟩
  intro w
  constructor
  · intro hw
    refine (c2 w).mp (c3 w ?_)
    simp only [List.nil_append, List.mem_reverse]
    exact (p1mem w).mpr hw
  · intro hex
    exact c4 w ((c2 w).mpr hex)

theorem sccs_same_iff {adjO adjT : Nat → List Nat} {N : Nat}
    (hadjO : WfAdj N adjO) (hadjT : WfAdj N adjT)
    (hrev : ∀ a b, Edge adjT a b ↔ Edge adjO b a) {u v : Nat} (hu : u < N) :
    (∃ C ∈ sccsPure adjO adjT N, u ∈ C ∧ v ∈ C) ↔ SameSCC adjO u v := by
  obtain ⟨k1, k2, _⟩ := kosaraju_pure hadjO hadjT hrev
  constructor
  · rintro ⟨C, hC, huC, hvC⟩
    obtain ⟨ρ, _, hρ⟩ := k1 C hC
    have h1 : SameSCC adjO ρ u := (hρ u).mp huC
    have h2 : SameSCC adjO ρ v := (hρ v).mp hvC
    exact ⟨h1.2.trans h2.1, h2.2.trans h1.1⟩
  · intro huv
    obtain ⟨C, hC, huC⟩ := (k2 u).mp hu
    obtain ⟨ρ, _, hρ⟩ := k1 C hC
    have h1 : SameSCC adjO ρ u := (hρ u).mp huC
    refine ⟨C, hC, huC, (hρ v).mpr ⟨h1.1.trans huv.1, huv.2.trans h1.2⟩⟩

/-! ## Bridging the faithful `defaultdict`-threading model to the pure one -/

theorem dictExt_refl (g : Dict) : DictExt g g := ⟨rfl, rfl, id⟩

theorem dictExt_trans {g₁ g₂ g₃ : Dict} (h₁ : DictExt g₁ g₂) (h₂ : DictExt g₂ g₃) :
    DictExt g₁ g₃ :=
  ⟨h₂.1.trans h₁.1, h₂.2.1.trans h₁.2.1, fun h => h₂.2.2 (h₁.2.2 h)⟩

theorem dictExt_ddGet (g : Dict) (k : Nat) : DictExt g (ddGet g k).2 :=
  ⟨adjFun_ddGet_snd g k, edgeSeq_ddGet_snd g k, fun h => nodupKeys_ddGet_snd k h⟩

theorem dfs1Py_succ (f : Nat) (g : Dict) (v : Nat) (vis : Nat → Bool) (stk : List Nat) :
    dfs1Py (f + 1) g v vis stk =
      (((ddGet g v).1.foldl (fun (acc : Dict × (Nat → Bool) × List Nat) n =>
          if acc.2.1 n then acc else dfs1Py f acc.1 n acc.2.1 acc.2.2)
          ((ddGet g v).2, Mark v vis, stk)).1,
       ((ddGet g v).1.foldl (fun (acc : Dict × (Nat → Bool) × List Nat) n =>
          if acc.2.1 n then acc else dfs1Py f acc.1 n acc.2.1 acc.2.2)
          ((ddGet g v).2, Mark v vis, stk)).2.1,
       ((ddGet g v).1.foldl (fun (acc : Dict × (Nat → Bool) × List Nat) n =>
          if acc.2.1 n then acc else dfs1Py f acc.1 n acc.2.1 acc.2.2)
          ((ddGet g v).2, Mark v vis, stk)).2.2 ++ [v]) := rfl

theorem dfs2Py_succ (f : Nat) (g : Dict) (v : Nat) (vis : Nat → Bool) (comp : List Nat) :
    dfs2Py (f + 1) g v vis comp =
      (ddGet g v).1.foldl (fun (acc : Dict × (Nat → Bool) × List Nat) n =>
          if acc.2.1 n then acc else dfs2Py f acc.1 n acc.2.1 acc.2.2)
        ((ddGet g v).2, Mark v vis, comp ++ [v]) := rfl

theorem dfs1Py_spec : ∀ (f : Nat) (g : Dict) (v : Nat) (vis : Nat → Bool) (stk : List Nat),
    (dfs1Py f g v vis stk).2 = dfs1 (adjFun g) f v (vis, stk) ∧
    DictExt g (dfs1Py f g v vis stk).1 := by
  intro f
  induction f with
  | zero => intro g v vis stk; exact ⟨rfl, dictExt_refl g⟩
  | succ f ih =>
    intro g v vis stk
    have hloop : ∀ (ns : List Nat) (gacc : Dict) (visacc : Nat → Bool) (stkacc : List Nat),
        DictExt g gacc →
        ((ns.foldl (fun (acc : Dict × (Nat → Bool) × List Nat) n =>
            if acc.2.1 n then acc else dfs1Py f acc.1 n acc.2.1 acc.2.2)
            (gacc, visacc, stkacc)).2 = dfsL1 (adjFun g) f ns (visacc, stkacc)) ∧
        DictExt g (ns.foldl (fun (acc : Dict × (Nat → Bool) × List Nat) n =>
            if acc.2.1 n then acc else dfs1Py f acc.1 n acc.2.1 acc.2.2)
            (gacc, visacc, stkacc)).1 := by
      intro ns
      induction ns with
      | nil => intro gacc visacc stkacc hext; exact ⟨rfl, hext⟩
      | cons n ns ihn =>
        intro gacc visacc stkacc hext
        simp only [List.foldl_cons]
        rw [dfsL1_cons]
        by_cases hn : visacc n = true
        · rw [if_pos hn, if_pos hn]
          exact ihn gacc visacc stkacc hext
        · have hnf : visacc n = false := by simpa using hn
          rw [if_neg (by simp [hnf]), if_neg (by simp [hnf])]
          obtain ⟨h2, hext2⟩ := ih gacc n visacc stkacc
          rw [hext.1] at h2
          have hr : dfs1Py f gacc n visacc stkacc =
              ((dfs1Py f gacc n visacc stkacc).1, (dfs1Py f gacc n visacc stkacc).2.1,
               (dfs1Py f gacc n visacc stkacc).2.2) := rfl
          rw [hr]
          obtain ⟨hA, hB⟩ := ihn (dfs1Py f gacc n visacc stkacc).1
            (dfs1Py f gacc n visacc stkacc).2.1 (dfs1Py f gacc n visacc stkacc).2.2
            (dictExt_trans hext hext2)
          refine ⟨?_, hB⟩
          rw [hA]
          have : ((dfs1Py f gacc n visacc stkacc).2.1, (dfs1Py f gacc n visacc stkacc).2.2)
              = dfs1 (adjFun g) f n (visacc, stkacc) := by
            rw [← h2]
          rw [this]
    obtain ⟨hA, hB⟩ := hloop (ddGet g v).1 (ddGet g v).2 (Mark v vis) stk (dictExt_ddGet g v)
    rw [ddGet_fst] at hA
    constructor
    · rw [dfs1Py_succ, ddGet_fst g v]
      show (_, _) = dfs1 (adjFun g) (f + 1) v (vis, stk)
      rw [dfs1_succ]
      have h1 := congrArg Prod.fst hA
      have h2 := congrArg Prod.snd hA
      simp only at h1 h2
      rw [h1, h2]
    · rw [dfs1Py_succ]
      exact hB

theorem dfs2Py_spec : ∀ (f : Nat) (g : Dict) (v : Nat) (vis : Nat → Bool) (comp : List Nat),
    (dfs2Py f g v vis comp).2 = dfs2 (adjFun g) f v (vis, comp) ∧
    DictExt g (dfs2Py f g v vis comp).1 := by
  intro f
  induction f with
  | zero => intro g v vis comp; exact ⟨rfl, dictExt_refl g⟩
  | succ f ih =>
    intro g v vis comp
    have hloop : ∀ (ns : List Nat) (gacc : Dict) (visacc : Nat → Bool) (compacc : List Nat),
        DictExt g gacc →
        ((ns.foldl (fun (acc : Dict × (Nat → Bool) × List Nat) n =>
            if acc.2.1 n then acc else dfs2Py f acc.1 n acc.2.1 acc.2.2)
            (gacc, visacc, compacc)).2 = dfsL2 (adjFun g) f ns (visacc, compacc)) ∧
        DictExt g (ns.foldl (fun (acc : Dict × (Nat → Bool) × List Nat) n =>
            if acc.2.1 n then acc else dfs2Py f acc.1 n acc.2.1 acc.2.2)
            (gacc, visacc, compacc)).1 := by
      intro ns
      induction ns with
      | nil => intro gacc visacc compacc hext; exact ⟨rfl, hext⟩
      | cons n ns ihn =>
        intro gacc visacc compacc hext
        simp only [List.foldl_cons]
        rw [dfsL2_cons]
        by_cases hn : visacc n = true
        · rw [if_pos hn, if_pos hn]
          exact ihn gacc visacc compacc hext
        · have hnf : visacc n = false := by simpa using hn
          rw [if_neg (by simp [hnf]), if_neg (by simp [hnf])]
          obtain ⟨h2, hext2⟩ := ih gacc n visacc compacc
          rw [hext.1] at h2
          have hr : dfs2Py f gacc n visacc compacc =
              ((dfs2Py f gacc n visacc compacc).1, (dfs2Py f gacc n visacc compacc).2.1,
               (dfs2Py f gacc n visacc compacc).2.2) := rfl
          rw [hr]
          obtain ⟨hA, hB⟩ := ihn (dfs2Py f gacc n visacc compacc).1
            (dfs2Py f gacc n visacc compacc).2.1 (dfs2Py f gacc n visacc compacc).2.2
            (dictExt_trans hext hext2)
          refine ⟨?_, hB⟩
          rw [hA]
          have : ((dfs2Py f gacc n visacc compacc).2.1, (dfs2Py f gacc n visacc compacc).2.2)
              = dfs2 (adjFun g) f n (visacc, compacc) := by
            rw [← h2]
          rw [this]
    obtain ⟨hA, hB⟩ := hloop (ddGet g v).1 (ddGet g v).2 (Mark v vis) (comp ++ [v])
      (dictExt_ddGet g v)
    rw [ddGet_fst] at hA
    constructor
    · rw [dfs2Py_succ, ddGet_fst g v, dfs2_succ]
      exact hA
    · rw [dfs2Py_succ]
      exact hB

theorem pass1Py_cons (fuel i : Nat) (rest : List Nat) (g : Dict) (vis : Nat → Bool)
    (stk : List Nat) :
    pass1Py fuel (i :: rest) g vis stk =
      if vis i then pass1Py fuel rest g vis stk
      else pass1Py fuel rest (dfs1Py fuel g i vis stk).1 (dfs1Py fuel g i vis stk).2.1
        (dfs1Py fuel g i vis stk).2.2 := rfl

theorem pass1_cons (adj : Nat → List Nat) (fuel i : Nat) (rest : List Nat)
    (st : (Nat → Bool) × List Nat) :
    pass1 adj fuel (i :: rest) st =
      if st.1 i then pass1 adj fuel rest st
      else pass1 adj fuel rest (dfs1 adj fuel i st) := rfl

theorem pass1Py_spec (fuel : Nat) :
    ∀ (l : List Nat) (g : Dict) (vis : Nat → Bool) (stk : List Nat),
      (pass1Py fuel l g vis stk).2 = pass1 (adjFun g) fuel l (vis, stk) ∧
      DictExt g (pass1Py fuel l g vis stk).1 := by
  intro l
  induction l with
  | nil => intro g vis stk; exact ⟨rfl, dictExt_refl g⟩
  | cons i rest ih =>
    intro g vis stk
    rw [pass1Py_cons, pass1_cons]
    by_cases hi : vis i = true
    · rw [if_pos hi, if_pos hi]
      exact ih g vis stk
    · rw [if_neg (by simp [hi]), if_neg (by simp [hi])]
      obtain ⟨h2, hext2⟩ := dfs1Py_spec fuel g i vis stk
      obtain ⟨hA, hB⟩ := ih (dfs1Py fuel g i vis stk).1 (dfs1Py fuel g i vis stk).2.1
        (dfs1Py fuel g i vis stk).2.2
      refine ⟨?_, dictExt_trans hext2 hB⟩
      rw [hA, hext2.1]
      have h3 : ((dfs1Py fuel g i vis stk).2.1, (dfs1Py fuel g i vis stk).2.2)
          = dfs1 (adjFun g) fuel i (vis, stk) := by
        rw [← h2]
      rw [h3]

theorem pass2Py_cons (fuel v : Nat) (rest : List Nat) (tg : Dict) (vis : Nat → Bool)
    (sccs : List (List Nat)) :
    pass2Py fuel (v :: rest) tg vis sccs =
      if vis v then pass2Py fuel rest tg vis sccs
      else pass2Py fuel rest (dfs2Py fuel tg v vis []).1 (dfs2Py fuel tg v vis []).2.1
        (sccs ++ [(dfs2Py fuel tg v vis []).2.2]) := rfl

theorem pass2Py_spec (fuel : Nat) :
    ∀ (P : List Nat) (tg : Dict) (vis : Nat → Bool) (sccs : List (List Nat)),
      (pass2Py fuel P tg vis sccs).2 = pass2 (adjFun tg) fuel P vis sccs ∧
      DictExt tg (pass2Py fuel P tg vis sccs).1 := by
  intro P
  induction P with
  | nil => intro tg vis sccs; exact ⟨rfl, dictExt_refl tg⟩
  | cons v rest ih =>
    intro tg vis sccs
    rw [pass2Py_cons, pass2_cons]
    by_cases hv : vis v = true
    · rw [if_pos hv, if_pos hv]
      exact ih tg vis sccs
    · rw [if_neg (by simp [hv]), if_neg (by simp [hv])]
      obtain ⟨h2, hext2⟩ := dfs2Py_spec fuel tg v vis []
      obtain ⟨hA, hB⟩ := ih (dfs2Py fuel tg v vis []).1 (dfs2Py fuel tg v vis []).2.1
        (sccs ++ [(dfs2Py fuel tg v vis []).2.2])
      refine ⟨?_, dictExt_trans hext2 hB⟩
      rw [hA, hext2.1]
      have h3 : (dfs2Py fuel tg v vis []).2.1 = (dfs2 (adjFun tg) fuel v (vis, [])).1 := by
        rw [← h2]
      have h4 : (dfs2Py fuel tg v vis []).2.2 = (dfs2 (adjFun tg) fuel v (vis, [])).2 := by
        rw [← h2]
      rw [h3, h4]

/-! ## Specification of `find_strongly_connected_components` -/

theorem find_scc_unfold (N : Nat) (g : Dict) :
    find_strongly_connected_components N g =
      ((pass2Py N ((pass1Py N (List.range N) g (fun _ => false) []).2.2).reverse
          (transposeD (pass1Py N (List.range N) g (fun _ => false) []).1)
          (fun _ => false) []).2.2,
       (pass1Py N (List.range N) g (fun _ => false) []).1) := rfl

theorem find_scc_spec (N : Nat) (g : Dict) (hnd : (keysOf g).Nodup) :
    (find_strongly_connected_components N g).1 = sccsPure (adjFun g) (adjTOf g) N ∧
    DictExt g (find_strongly_connected_components N g).2 := by
  rw [find_scc_unfold]
  obtain ⟨hp1, hext1⟩ := pass1Py_spec N (List.range N) g (fun _ => false) []
  have hstk : (pass1Py N (List.range N) g (fun _ => false) []).2.2
      = (pass1 (adjFun g) N (List.range N) (fun _ => false, [])).2 := by
    rw [hp1]
  have htg : transposeD (pass1Py N (List.range N) g (fun _ => false) []).1
      = foldT (edgeSeq g) := by
    rw [transposeD_eq _ (hext1.2.2 hnd), hext1.2.1]
    rfl
  obtain ⟨hp2, _⟩ := pass2Py_spec N
    (((pass1Py N (List.range N) g (fun _ => false) []).2.2).reverse)
    (transposeD (pass1Py N (List.range N) g (fun _ => false) []).1) (fun _ => false) []
  refine ⟨?_, hext1⟩
  have h22 := congrArg Prod.snd hp2
  simp only at h22
  show (pass2Py N _ _ _ _).2.2 = _
  rw [h22, htg, hstk]
  rfl

theorem mem_adjFun_edgeSeq {g : Dict} {u w : Nat} (h : w ∈ adjFun g u) :
    (u, w) ∈ edgeSeq g := by
  induction g with
  | nil => simp [adjFun, lookupD] at h
  | cons p rest ih =>
    obtain ⟨a, l⟩ := p
    rw [edgeSeq_cons]
    by_cases hu : u = a
    · subst hu
      rw [adjFun_cons_self] at h
      exact List.mem_append.mpr (Or.inl (List.mem_map.mpr ⟨w, h, rfl⟩))
    · rw [adjFun_cons_ne l rest hu] at h
      exact List.mem_append.mpr (Or.inr (ih h))

theorem wfAdj_of_wfDict {N : Nat} {g : Dict} (h : WfDict N g) : WfAdj N (adjFun g) :=
  fun _ w hw => h.2 (_, w) (mem_adjFun_edgeSeq hw)

theorem mem_edgeSeq_foldT {E : List (Nat × Nat)} {a b : Nat} :
    (a, b) ∈ edgeSeq (foldT E) ↔ (b, a) ∈ E := by
  unfold foldT
  have hperm := edgeSeq_foldT_perm E []
  rw [hperm.mem_iff]
  show (a, b) ∈ E.map Prod.swap ++ edgeSeq [] ↔ _
  simp only [edgeSeq, List.flatMap_nil, List.append_nil, List.mem_map]
  constructor
  · rintro ⟨p, hp, hswap⟩
    have : p = (b, a) := by
      obtain ⟨x, y⟩ := p
      cases hswap
      rfl
    rw [← this]
    exact hp
  · intro h
    exact ⟨(b, a), h, rfl⟩

theorem adjTOf_mem {g : Dict} {x y : Nat} :
    y ∈ adjTOf g x ↔ (y, x) ∈ edgeSeq g := by
  unfold adjTOf
  rw [show foldT (edgeSeq g) = List.foldl (fun t p => ddAppend t p.2 p.1) [] (edgeSeq g) from rfl]
  rw [← mem_edgeSeq_iff (nodupKeys_foldT (edgeSeq g) [] (by simp [keysOf]))]
  exact mem_edgeSeq_foldT

theorem wfAdj_adjTOf {N : Nat} {g : Dict} (hwf : WfDict N g) : WfAdj N (adjTOf g) := by
  intro u w hw
  have h := adjTOf_mem.mp hw
  exact ⟨(hwf.2 _ h).2, (hwf.2 _ h).1⟩

theorem hrev_adjTOf {g : Dict} (hnd : (keysOf g).Nodup) :
    ∀ a b, Edge (adjTOf g) a b ↔ Edge (adjFun g) b a := by
  intro a b
  unfold Edge
  rw [adjTOf_mem, mem_edgeSeq_iff hnd]

theorem scc_master (N : Nat) (g : Dict) (hwf : WfDict N g) :
    (∀ C ∈ (find_strongly_connected_components N g).1,
      ∃ ρ, ρ ∈ C ∧ IsSCCOf (adjFun g) C ρ) ∧
    (∀ w, w < N ↔ ∃ C ∈ (find_strongly_connected_components N g).1, w ∈ C) ∧
    ((find_strongly_connected_components N g).1.flatten).Nodup ∧
    DictExt g (find_strongly_connected_components N g).2 := by
  obtain ⟨heq, hext⟩ := find_scc_spec N g hwf.1
  obtain ⟨k1, k2, k3⟩ := kosaraju_pure (wfAdj_of_wfDict hwf) (wfAdj_adjTOf hwf)
    (hrev_adjTOf hwf.1)
  rw [heq]
  exact ⟨k1, k2, k3, hext⟩

/-! ## Small helpers for the claim theorems -/

theorem reach_of_no_out {adj : Nat → List Nat} {u w : Nat} (hu : adj u = [])
    (h : Reach adj u w) : w = u := by
  rcases Relation.ReflTransGen.cases_head h with h1 | ⟨c, hc, _⟩
  · exact h1.symm
  · have : c ∈ adj u := hc
    rw [hu] at this
    cases this

theorem eq_singleton_of {C : List Nat} {u : Nat} (hnd : C.Nodup) (hu : u ∈ C)
    (hall : ∀ w ∈ C, w = u) : C = [u] := by
  cases C with
  | nil => cases hu
  | cons c rest =>
    have hc : c = u := hall c (by simp)
    subst hc
    have hnil : rest = [] := by
      rw [List.eq_nil_iff_forall_not_mem]
      intro a ha
      have ha2 : a = c := hall a (by simp [ha])
      subst ha2
      exact (List.nodup_cons.mp hnd).1 ha
    rw [hnil]

theorem exists_enum_of_mem {α : Type} {l : List α} {C : α} (h : C ∈ l) :
    ∃ i, (i, C) ∈ l.enum := by
  obtain ⟨i, hi, hget⟩ := List.getElem_of_mem h
  refine ⟨i, ?_⟩
  rw [List.mem_enum_iff_getElem?]
  simp only
  rw [List.getElem?_eq_getElem hi]
  rw [hget]

/-! ## Claim theorems: the SCC decomposition -/

/-- C2: for every well-formed directed graph on `[0, N)`,
`find_strongly_connected_components` puts `u` and `v` in one component
exactly when each reaches the other along directed edges, and an isolated
vertex (no outgoing edges) can only sit in the singleton component `[u]`. -/
theorem C2_scc_mutual_reachability (N : Nat) (g : Dict) (hwf : WfDict N g)
    (u v : Nat) (hu : u < N) :
    ((∃ C ∈ (find_strongly_connected_components N g).1, u ∈ C ∧ v ∈ C) ↔
      (Reach (adjFun g) u v ∧ Reach (adjFun g) v u)) ∧
    (adjFun g u = [] →
      ∀ C ∈ (find_strongly_connected_components N g).1, u ∈ C → C = [u]) := by
  obtain ⟨k1, k2, k3, _⟩ := scc_master N g hwf
  constructor
  · constructor
    · rintro ⟨C, hC, huC, hvC⟩
      obtain ⟨ρ, _, hρ⟩ := k1 C hC
      have h1 : SameSCC (adjFun g) ρ u := (hρ u).mp huC
      have h2 : SameSCC (adjFun g) ρ v := (hρ v).mp hvC
      exact ⟨h1.2.trans h2.1, h2.2.trans h1.1⟩
    · intro huv
      obtain ⟨C, hC, huC⟩ := (k2 u).mp hu
      obtain ⟨ρ, _, hρ⟩ := k1 C hC
      have h1 : SameSCC (adjFun g) ρ u := (hρ u).mp huC
      exact ⟨C, hC, huC, (hρ v).mpr ⟨h1.1.trans huv.1, huv.2.trans h1.2⟩⟩
  · intro hiso C hC huC
    have hndC : C.Nodup := (List.nodup_flatten.mp k3).1 C hC
    refine eq_singleton_of hndC huC ?_
    intro w hwC
    obtain ⟨ρ, _, hρ⟩ := k1 C hC
    have h1 : SameSCC (adjFun g) ρ u := (hρ u).mp huC
    have h2 : SameSCC (adjFun g) ρ w := (hρ w).mp hwC
    exact reach_of_no_out hiso (h1.2.trans h2.1)

/-- C2 witness: on the two-vertex cycle `0 ↔ 1` the characterization holds
at `u = 0`, `v = 1`. -/
theorem C2_witness :
    ((∃ C ∈ (find_strongly_connected_components 2
        (ddAppend (ddAppend [] 0 1) 1 0)).1, 0 ∈ C ∧ 1 ∈ C) ↔
      (Reach (adjFun (ddAppend (ddAppend [] 0 1) 1 0)) 0 1 ∧
       Reach (adjFun (ddAppend (ddAppend [] 0 1) 1 0)) 1 0)) ∧
    (adjFun (ddAppend (ddAppend [] 0 1) 1 0) 0 = [] →
      ∀ C ∈ (find_strongly_connected_components 2
        (ddAppend (ddAppend [] 0 1) 1 0)).1, 0 ∈ C → C = [0]) :=
  C2_scc_mutual_reachability 2 (ddAppend (ddAppend [] 0 1) 1 0)
    (by unfold WfDict; decide) 0 1 (by decide)

/-- C3: for every well-formed graph on `[0, N)`, the components returned
by `find_strongly_connected_components` partition `[0, N)` exactly: their
concatenation is a permutation of `range N`, so no vertex is missing and
none is duplicated. -/
theorem C3_scc_partition (N : Nat) (g : Dict) (hwf : WfDict N g) :
    ((find_strongly_connected_components N g).1.flatten).Perm (List.range N) := by
  obtain ⟨_, k2, k3, _⟩ := scc_master N g hwf
  rw [List.perm_ext_iff_of_nodup k3 (List.nodup_range N)]
  intro a
  rw [List.mem_flatten, List.mem_range]
  constructor
  · rintro ⟨C, hC, haC⟩
    exact (k2 a).mpr ⟨C, hC, haC⟩
  · intro ha
    exact (k2 a).mp ha

/-- C3 witness: concrete partition for the two-vertex cycle graph. -/
theorem C3_witness :
    ((find_strongly_connected_components 2
      (ddAppend (ddAppend [] 0 1) 1 0)).1.flatten).Perm (List.range 2) :=
  C3_scc_partition 2 (ddAppend (ddAppend [] 0 1) 1 0)
    (by unfold WfDict; decide)

/-! ## Unfolding `find_minimum_additional_routes` -/

theorem find_min_unfold (G : Graph) (start : String) :
    G.find_minimum_additional_routes start =
      (match (find_strongly_connected_components G.vertices G.graph).1 with
       | [] => (Except.error PyError.stopIt,
           { G with graph := (find_strongly_connected_components G.vertices G.graph).2 })
       | _ :: _ =>
         match lookupLabel G.airports start with
         | none => (Except.error (PyError.keyError start),
             { G with graph := (find_strongly_connected_components G.vertices G.graph).2 })
         | some sid =>
           match (find_strongly_connected_components G.vertices G.graph).1.enum.find?
               (fun p => sid ∈ p.2) with
           | none => (Except.error PyError.stopIt,
               { G with graph := (find_strongly_connected_components G.vertices G.graph).2 })
           | some p =>
             (Except.ok (calculate_routes_needed
                 (build_compressed_graph_from_sccs
                   (find_strongly_connected_components G.vertices G.graph).2
                   (find_strongly_connected_components G.vertices G.graph).1) p.1),
              { G with graph :=
                  (find_strongly_connected_components G.vertices G.graph).2 })) := rfl

/-- C10: when the registered start label maps to an id inside `[0, N)` of a
well-formed graph, the linear component scan of
`find_minimum_additional_routes` always succeeds: the `StopIteration`
branch is unreachable. -/
theorem C10_start_component_found (G : Graph) (start : String)
    (hwf : WfDict G.vertices G.graph) (sid : Nat)
    (hlookup : lookupLabel G.airports start = some sid) (hsid : sid < G.vertices) :
    (G.find_minimum_additional_routes start).1 ≠ Except.error PyError.stopIt := by
  obtain ⟨_, k2, _, _⟩ := scc_master G.vertices G.graph hwf
  obtain ⟨C, hC, hsidC⟩ := (k2 sid).mp hsid
  rw [find_min_unfold]
  split
  · next heq =>
    rw [heq] at hC
    cases hC
  · next head tail heq =>
    split
    · next hnone =>
      rw [hlookup] at hnone
      cases hnone
    · next sid' hsome =>
      rw [hlookup] at hsome
      injection hsome with hsid'
      subst hsid'
      split
      · next hfound =>
        exfalso
        obtain ⟨i, hi⟩ := exists_enum_of_mem hC
        have h2 := List.find?_eq_none.mp hfound (i, C) hi
        simp at h2
        exact h2 hsidC
      · next p hp =>
        simp

/-- C10 witness: on the two-vertex cycle with labels A, B, the scan
succeeds for start label A. -/
theorem C10_witness :
    (((Graph.init [("A", 0), ("B", 1)]).add_routes
        [("A", "B"), ("B", "A")]).2.find_minimum_additional_routes "A").1 ≠
      Except.error PyError.stopIt :=
  C10_start_component_found _ "A" (by unfold WfDict; decide) 0 (by decide) (by decide)

/-! ## Claim theorems: concrete evaluations -/

/-- C5: on the 18-airport, 20-route sample graph of `test.py`,
`find_minimum_additional_routes("DSM")` returns exactly 3. -/
theorem C5_sample_returns_three :
    (sampleGraph.find_minimum_additional_routes "DSM").1 = Except.ok 3 := by
  rfl

/-- C1: the claim fails on the code.  On the graph with airports
`{A: 0, B: 1}` and no routes, starting at `A`, the code returns 0 (its
in-degree scan ranges over `len(compressed_graph) = 0` indices), while the
count over the FULL component range (2 components, the start component
being index 1) as the claim and spec describe is 1: component 0 (= `{B}`)
has in-degree 0 and differs from the start component. -/
theorem C1_routes_range_code_bug :
    ((Graph.init [("A", 0), ("B", 1)]).find_minimum_additional_routes "A").1 =
      Except.ok 0 ∧
    spec_routes_needed
      (build_compressed_graph_from_sccs
        (find_strongly_connected_components 2 (Graph.init [("A", 0), ("B", 1)]).graph).2
        (find_strongly_connected_components 2 (Graph.init [("A", 0), ("B", 1)]).graph).1)
      (find_strongly_connected_components 2 (Graph.init [("A", 0), ("B", 1)]).graph).1.length
      ((((find_strongly_connected_components 2
          (Graph.init [("A", 0), ("B", 1)]).graph).1.enum.find?
            (fun p => 0 ∈ p.2)).map Prod.fst).getD 0) = 1 := by
  constructor
  · rfl
  · rfl

/-! ## Claim theorems: the error surface (C6) -/

theorem add_routes_cons (G : Graph) (f t : String) (rest : List (String × String)) :
    G.add_routes ((f, t) :: rest) =
      match lookupLabel G.airports f with
      | none => (Except.error (PyError.keyError f), G)
      | some fi =>
        match lookupLabel G.airports t with
        | none => (Except.error (PyError.keyError t), G)
        | some ti => Graph.add_routes (G.add_edge fi ti) rest := rfl

theorem add_routes_error_iff :
    ∀ (routes : List (String × String)) (G : Graph),
      isUnknownLabel ((G.add_routes routes).1) ↔
        ∃ p ∈ routes, lookupLabel G.airports p.1 = none ∨
          lookupLabel G.airports p.2 = none := by
  intro routes
  induction routes with
  | nil =>
    intro G
    constructor
    · rintro ⟨l, hl⟩
      exact Except.noConfusion hl
    · rintro ⟨p, hp, _⟩
      cases hp
  | cons r rest ih =>
    intro G
    obtain ⟨f, t⟩ := r
    rw [add_routes_cons]
    cases hf : lookupLabel G.airports f with
    | none =>
      constructor
      · intro _
        exact ⟨(f, t), by simp, Or.inl hf⟩
      · intro _
        exact ⟨f, rfl⟩
    | some fi =>
      cases ht : lookupLabel G.airports t with
      | none =>
        constructor
        · intro _
          exact ⟨(f, t), by simp, Or.inr ht⟩
        · intro _
          exact ⟨t, rfl⟩
      | some ti =>
        rw [ih (G.add_edge fi ti)]
        constructor
        · rintro ⟨p, hp, hcase⟩
          exact ⟨p, by simp [hp], hcase⟩
        · rintro ⟨p, hp, hcase⟩
          rcases List.mem_cons.mp hp with h | h
          · subst h
            rcases hcase with h1 | h1
            · rw [hf] at h1
              cases h1
            · rw [ht] at h1
              cases h1
          · exact ⟨p, h, hcase⟩

theorem pass2_sccs_ext (adjT : Nat → List Nat) (fuel : Nat) :
    ∀ (P : List Nat) (vis : Nat → Bool) (sccs : List (List Nat)),
      ∃ extra, (pass2 adjT fuel P vis sccs).2 = sccs ++ extra := by
  intro P
  induction P with
  | nil =>
    intro vis sccs
    exact ⟨[], by rw [pass2_nil]; simp⟩
  | cons v rest ih =>
    intro vis sccs
    rw [pass2_cons]
    by_cases hv : vis v = true
    · rw [if_pos hv]
      exact ih vis sccs
    · rw [if_neg (by simp [hv])]
      obtain ⟨extra, hx⟩ := ih (dfs2 adjT fuel v (vis, [])).1
        (sccs ++ [(dfs2 adjT fuel v (vis, [])).2])
      exact ⟨[(dfs2 adjT fuel v (vis, [])).2] ++ extra, by rw [hx, List.append_assoc]⟩

theorem pass1_stack_zero_mem (adj : Nat → List Nat) :
    ∀ {N : Nat}, 0 < N → 0 ∈ (pass1 adj N (List.range N) (fun _ => false, [])).2 := by
  intro N hN
  rw [pass1_eq_dfsL1]
  obtain ⟨t, hb⟩ := dfsL1_bundle_of (dfs1_bundle adj N) (List.range N) (fun _ => false, [])
  have hstk : (dfsL1 adj N (List.range N) (fun _ => false, [])).2 = t := by
    simpa using hb.1
  have hvis0 : (dfsL1 adj N (List.range N) (fun _ => false, [])).1 0 = true := by
    cases N with
    | zero => omega
    | succ m =>
      rw [List.range_succ_eq_map, dfsL1_cons]
      rw [if_neg (by simp)]
      exact dfsL1_vis_mono adj (m + 1) _ _
        (dfs1_marks_root adj 0 (fun _ => false, []) (by omega))
  rw [hstk]
  rcases (hb.2.1 0).mp hvis0 with h | h
  · cases h
  · exact h

theorem pass2_result_ne_nil (adjT : Nat → List Nat) (fuel v0 : Nat) (P : List Nat) :
    (pass2 adjT fuel (v0 :: P) (fun _ => false) []).2 ≠ [] := by
  rw [pass2_cons, if_neg (by simp)]
  obtain ⟨extra, hx⟩ := pass2_sccs_ext adjT fuel P (dfs2 adjT fuel v0 (fun _ => false, [])).1
    ([] ++ [(dfs2 adjT fuel v0 (fun _ => false, [])).2])
  rw [hx]
  simp

theorem sccs_ne_nil (N : Nat) (g : Dict) (hN : 0 < N) :
    (find_strongly_connected_components N g).1 ≠ [] := by
  rw [find_scc_unfold]
  obtain ⟨hp2, _⟩ := pass2Py_spec N
    (((pass1Py N (List.range N) g (fun _ => false) []).2.2).reverse)
    (transposeD (pass1Py N (List.range N) g (fun _ => false) []).1) (fun _ => false) []
  have h22 := congrArg Prod.snd hp2
  simp only at h22
  show (pass2Py N _ _ _ _).2.2 ≠ []
  rw [h22]
  obtain ⟨hp1, _⟩ := pass1Py_spec N (List.range N) g (fun _ => false) []
  have h0 : 0 ∈ (pass1Py N (List.range N) g (fun _ => false) []).2.2 := by
    rw [show (pass1Py N (List.range N) g (fun _ => false) []).2.2
        = (pass1 (adjFun g) N (List.range N) (fun _ => false, [])).2 from by rw [hp1]]
    exact pass1_stack_zero_mem (adjFun g) hN
  cases hP : ((pass1Py N (List.range N) g (fun _ => false) []).2.2).reverse with
  | nil =>
    rw [List.reverse_eq_nil_iff] at hP
    rw [hP] at h0
    cases h0
  | cons v0 Ptail =>
    exact pass2_result_ne_nil _ N v0 Ptail

/-- C6 counterexample: with an empty airport mapping and an absent start
label, the code raises `StopIteration` (the component generator is empty,
so the label lookup inside it is never evaluated), not the unknown-label
`KeyError` the claim demands. -/
theorem C6_counterexample :
    lookupLabel (Graph.init []).airports "X" = none ∧
    ((Graph.init []).find_minimum_additional_routes "X").1 =
      Except.error PyError.stopIt ∧
    ¬ isUnknownLabel ((Graph.init []).find_minimum_additional_routes "X").1 := by
  refine ⟨rfl, rfl, ?_⟩
  rintro ⟨l, hl⟩
  have h2 : (Except.error PyError.stopIt : Except PyError Nat) =
      Except.error (PyError.keyError l) := hl
  injection h2 with h3
  exact PyError.noConfusion h3

/-- C6 (amended): `add_routes` raises an unknown-label `KeyError` exactly
when some label of the supplied pairs is absent from the mapping;
`find_minimum_additional_routes` raises the unknown-label error for an
absent start label provided at least one airport is registered (with an
empty mapping the generator of step 3 is exhausted first and
`StopIteration` is raised instead); when the start label is present, no
unknown-label error is raised. -/
theorem C6_error_surface_amended (G : Graph) (routes : List (String × String))
    (start : String) :
    (isUnknownLabel ((G.add_routes routes).1) ↔
      ∃ p ∈ routes, lookupLabel G.airports p.1 = none ∨
        lookupLabel G.airports p.2 = none) ∧
    (0 < G.vertices → lookupLabel G.airports start = none →
      (G.find_minimum_additional_routes start).1 =
        Except.error (PyError.keyError start)) ∧
    ((∃ sid, lookupLabel G.airports start = some sid) →
      ¬ isUnknownLabel (G.find_minimum_additional_routes start).1) := by
  refine ⟨add_routes_error_iff routes G, ?_, ?_⟩
  · intro hN hnone
    rw [find_min_unfold]
    split
    · next heq => exact absurd heq (sccs_ne_nil G.vertices G.graph hN)
    · next head tail heq =>
      split
      · next => rfl
      · next sid hsome =>
        rw [hnone] at hsome
        cases hsome
  · rintro ⟨sid, hsid⟩
    rw [find_min_unfold]
    split
    · next heq =>
      rintro ⟨l, hl⟩
      have h2 : (Except.error PyError.stopIt : Except PyError Nat) =
          Except.error (PyError.keyError l) := hl
      injection h2 with h3
      exact PyError.noConfusion h3
    · next head tail heq =>
      split
      · next hnone =>
        rw [hsid] at hnone
        cases hnone
      · next sid' hsome =>
        split
        · next =>
          rintro ⟨l, hl⟩
          have h2 : (Except.error PyError.stopIt : Except PyError Nat) =
              Except.error (PyError.keyError l) := hl
          injection h2 with h3
          exact PyError.noConfusion h3
        · next p hp =>
          rintro ⟨l, hl⟩
          exact Except.noConfusion hl

/-- C6 witness: concrete instances of all three parts on the two-airport
mapping `{A: 0, B: 1}`. -/
theorem C6_witness :
    isUnknownLabel (((Graph.init [("A", 0), ("B", 1)]).add_routes [("A", "C")]).1) ∧
    ((Graph.init [("A", 0), ("B", 1)]).find_minimum_additional_routes "Z").1 =
      Except.error (PyError.keyError "Z") ∧
    ¬ isUnknownLabel
      ((Graph.init [("A", 0), ("B", 1)]).find_minimum_additional_routes "A").1 :=
  ⟨(C6_error_surface_amended (Graph.init [("A", 0), ("B", 1)]) [("A", "C")] "Z").1.mpr
      ⟨("A", "C"), by simp, Or.inr rfl⟩,
   (C6_error_surface_amended (Graph.init [("A", 0), ("B", 1)]) [] "Z").2.1
      (by decide) rfl,
   (C6_error_surface_amended (Graph.init [("A", 0), ("B", 1)]) [] "A").2.2 ⟨0, rfl⟩⟩

/-! ## The compressed graph and `scc_map` (towards C4) -/

theorem sccMapAux_nil (idx : Nat) (m : Nat → Option Nat) : sccMapAux idx [] m = m := rfl

theorem sccMapAux_cons (idx : Nat) (C : List Nat) (rest : List (List Nat))
    (m : Nat → Option Nat) :
    sccMapAux idx (C :: rest) m =
      sccMapAux (idx + 1) rest
        (C.foldl (fun m2 a => fun x => if x = a then some idx else m2 x) m) := rfl

theorem foldl_update_eval (idx : Nat) :
    ∀ (C : List Nat) (m : Nat → Option Nat) (v : Nat),
      (C.foldl (fun m2 a => fun x => if x = a then some idx else m2 x) m) v =
        if v ∈ C then some idx else m v := by
  intro C
  induction C with
  | nil => intro m v; simp
  | cons a rest ih =>
    intro m v
    rw [List.foldl_cons, ih]
    by_cases hva : v = a <;> by_cases hv : v ∈ rest <;> simp [hva, hv]

theorem sccMapAux_not_mem :
    ∀ (sccs : List (List Nat)) (idx : Nat) (m : Nat → Option Nat) (v : Nat),
      v ∉ sccs.flatten → sccMapAux idx sccs m v = m v := by
  intro sccs
  induction sccs with
  | nil => intro idx m v _; rfl
  | cons C rest ih =>
    intro idx m v hv
    rw [List.flatten_cons, List.mem_append] at hv
    push_neg at hv
    rw [sccMapAux_cons, ih _ _ v hv.2, foldl_update_eval, if_neg hv.1]

theorem sccMapAux_mem :
    ∀ (sccs : List (List Nat)) (idx : Nat) (m : Nat → Option Nat)
      (v i : Nat) (Ci : List Nat),
      sccs[i]? = some Ci → v ∈ Ci → (sccs.flatten).Nodup →
      sccMapAux idx sccs m v = some (idx + i) := by
  intro sccs
  induction sccs with
  | nil =>
    intro idx m v i Ci hi
    simp at hi
  | cons C rest ih =>
    intro idx m v i Ci hi hv hnd
    rw [sccMapAux_cons]
    cases i with
    | zero =>
      have hC : C = Ci := by simpa using hi
      subst hC
      have hvrest : v ∉ rest.flatten := by
        rw [List.flatten_cons] at hnd
        exact fun hmem => (List.nodup_append.mp hnd).2.2 hv hmem
      rw [sccMapAux_not_mem rest _ _ v hvrest, foldl_update_eval, if_pos hv, Nat.add_zero]
    | succ j =>
      have hj : rest[j]? = some Ci := by simpa using hi
      have hnd2 : (rest.flatten).Nodup := by
        rw [List.flatten_cons] at hnd
        exact (List.nodup_append.mp hnd).2.1
      rw [ih (idx + 1) _ v j Ci hj hv hnd2]
      congr 1
      omega

theorem sccMapFun_eq {sccs : List (List Nat)} {v i : Nat} {Ci : List Nat}
    (hi : sccs[i]? = some Ci) (hv : v ∈ Ci) (hnd : (sccs.flatten).Nodup) :
    sccMapFun sccs v = some i := by
  unfold sccMapFun
  rw [sccMapAux_mem sccs 0 _ v i Ci hi hv hnd, Nat.zero_add]

theorem mem_setAdd {l : List Nat} {x v : Nat} : x ∈ setAdd l v ↔ x ∈ l ∨ x = v := by
  unfold setAdd
  by_cases hv : v ∈ l
  · rw [if_pos hv]
    constructor
    · exact Or.inl
    · rintro (h | h)
      · exact h
      · rw [h]
        exact hv
  · rw [if_neg hv]
    simp

theorem cgAdd_cons_ne {a k v : Nat} {l : List Nat} {rest : Dict} (h : ¬ k = a) :
    cgAdd ((a, l) :: rest) k v = (a, l) :: cgAdd rest k v := by
  simp [cgAdd, h]

theorem cgAdd_adjFun_self (cg : Dict) (k v : Nat) :
    adjFun (cgAdd cg k v) k = setAdd (adjFun cg k) v := by
  induction cg with
  | nil => simp [cgAdd, adjFun, lookupD, setAdd]
  | cons p rest ih =>
    obtain ⟨a, l⟩ := p
    by_cases hka : k = a
    · subst hka
      simp [cgAdd, adjFun, lookupD]
    · rw [cgAdd_cons_ne hka]
      simp only [adjFun, lookupD, if_neg hka] at ih ⊢
      exact ih

theorem cgAdd_adjFun_ne (cg : Dict) {k x : Nat} (v : Nat) (hx : ¬ x = k) :
    adjFun (cgAdd cg k v) x = adjFun cg x := by
  induction cg with
  | nil => simp [cgAdd, adjFun, lookupD, hx]
  | cons p rest ih =>
    obtain ⟨a, l⟩ := p
    by_cases hka : k = a
    · subst hka
      simp [cgAdd, adjFun, lookupD, hx]
    · rw [cgAdd_cons_ne hka]
      by_cases hxa : x = a
      · subst hxa
        simp [adjFun, lookupD]
      · simp only [adjFun, lookupD, if_neg hxa] at ih ⊢
        exact ih

theorem compress_fold_mem (sccs : List (List Nat)) :
    ∀ (E : List (Nat × Nat)) (cg0 : Dict) (i j : Nat),
      j ∈ adjFun (E.foldl (fun cg p =>
        if ¬ ((sccMapFun sccs p.1).getD 0 = (sccMapFun sccs p.2).getD 0)
        then cgAdd cg ((sccMapFun sccs p.1).getD 0) ((sccMapFun sccs p.2).getD 0)
        else cg) cg0) i →
      j ∈ adjFun cg0 i ∨ ∃ p ∈ E, (sccMapFun sccs p.1).getD 0 = i ∧
        (sccMapFun sccs p.2).getD 0 = j ∧ ¬ i = j := by
  intro E
  induction E with
  | nil =>
    intro cg0 i j h
    exact Or.inl h
  | cons p E ihE =>
    intro cg0 i j h
    rw [List.foldl_cons] at h
    rcases ihE _ i j h with h1 | ⟨q, hq, hcase⟩
    · by_cases hne : ¬ ((sccMapFun sccs p.1).getD 0 = (sccMapFun sccs p.2).getD 0)
      · rw [if_pos hne] at h1
        by_cases hik : i = (sccMapFun sccs p.1).getD 0
        · subst hik
          rw [cgAdd_adjFun_self] at h1
          rcases mem_setAdd.mp h1 with h2 | h2
          · exact Or.inl h2
          · exact Or.inr ⟨p, by simp, rfl, h2.symm, fun he => hne (he.trans h2)⟩
        · rw [cgAdd_adjFun_ne _ _ hik] at h1
          exact Or.inl h1
      · rw [if_neg hne] at h1
        exact Or.inl h1
    · exact Or.inr ⟨q, by simp [hq], hcase⟩

theorem disjoint_of_ne_index {sccs : List (List Nat)} (hnd : (sccs.flatten).Nodup)
    {i j : Nat} {Ci Cj : List Nat} (hi : sccs[i]? = some Ci) (hj : sccs[j]? = some Cj)
    (hij : ¬ i = j) {v : Nat} (hvi : v ∈ Ci) (hvj : v ∈ Cj) : False := by
  have hpw := (List.nodup_flatten.mp hnd).2
  rw [List.pairwise_iff_getElem] at hpw
  obtain ⟨hbi, hgi⟩ := List.getElem?_eq_some.mp hi
  obtain ⟨hbj, hgj⟩ := List.getElem?_eq_some.mp hj
  rcases Nat.lt_or_ge i j with h | h
  · have := hpw i j hbi hbj h
    rw [hgi, hgj] at this
    exact this hvi hvj
  · rcases Nat.lt_or_ge j i with h2 | h2
    · have := hpw j i hbj hbi h2
      rw [hgi, hgj] at this
      exact this hvj hvi
    · exact hij (by omega)

/-! ## Claim theorem C4: the condensation is acyclic -/

theorem condensation_edge_reach (N : Nat) (g : Dict) (hwf : WfDict N g) :
    ∀ i j, cEdge (build_compressed_graph_from_sccs
        (find_strongly_connected_components N g).2
        (find_strongly_connected_components N g).1) i j →
      ∃ Ci Cj u v,
        (find_strongly_connected_components N g).1[i]? = some Ci ∧
        (find_strongly_connected_components N g).1[j]? = some Cj ∧
        u ∈ Ci ∧ v ∈ Cj ∧ ¬ i = j ∧
        (∀ a ∈ Ci, ∀ b ∈ Cj, Reach (adjFun g) a b) := by
  intro i j hedge
  obtain ⟨k1, k2, k3, hext⟩ := scc_master N g hwf
  have hnd2 : (keysOf (find_strongly_connected_components N g).2).Nodup :=
    hext.2.2 hwf.1
  have hcg : build_compressed_graph_from_sccs
      (find_strongly_connected_components N g).2
      (find_strongly_connected_components N g).1 =
      (edgeSeq (find_strongly_connected_components N g).2).foldl
        (fun cg p =>
          if ¬ ((sccMapFun (find_strongly_connected_components N g).1 p.1).getD 0 =
              (sccMapFun (find_strongly_connected_components N g).1 p.2).getD 0)
          then cgAdd cg
            ((sccMapFun (find_strongly_connected_components N g).1 p.1).getD 0)
            ((sccMapFun (find_strongly_connected_components N g).1 p.2).getD 0)
          else cg) [] :=
    build_compressed_eq (find_strongly_connected_components N g).2
      (find_strongly_connected_components N g).1 hnd2
  unfold cEdge at hedge
  rw [hcg] at hedge
  rcases compress_fold_mem (find_strongly_connected_components N g).1 _ [] i j hedge
    with h0 | ⟨p, hpE, hpi, hpj, hij⟩
  · simp [adjFun, lookupD] at h0
  · obtain ⟨u, v⟩ := p
    rw [hext.2.1] at hpE
    have huN : u < N := (hwf.2 (u, v) hpE).1
    have hvN : v < N := (hwf.2 (u, v) hpE).2
    obtain ⟨Cu, hCu, huCu⟩ := (k2 u).mp huN
    obtain ⟨Cv, hCv, hvCv⟩ := (k2 v).mp hvN
    obtain ⟨iu, hiu⟩ := List.getElem?_of_mem hCu
    obtain ⟨iv, hiv⟩ := List.getElem?_of_mem hCv
    have hmu : sccMapFun (find_strongly_connected_components N g).1 u = some iu :=
      sccMapFun_eq hiu huCu k3
    have hmv : sccMapFun (find_strongly_connected_components N g).1 v = some iv :=
      sccMapFun_eq hiv hvCv k3
    have hieq : iu = i := by
      rw [hmu] at hpi
      simpa using hpi
    have hjeq : iv = j := by
      rw [hmv] at hpj
      simpa using hpj
    subst hieq
    subst hjeq
    refine ⟨Cu, Cv, u, v, hiu, hiv, huCu, hvCv, hij, ?_⟩
    intro a ha b hb
    obtain ⟨ρu, hρuMem, hρu⟩ := k1 Cu hCu
    obtain ⟨ρv, hρvMem, hρv⟩ := k1 Cv hCv
    have h1 : SameSCC (adjFun g) ρu a := (hρu a).mp ha
    have h2 : SameSCC (adjFun g) ρu u := (hρu u).mp huCu
    have h3 : SameSCC (adjFun g) ρv v := (hρv v).mp hvCv
    have h4 : SameSCC (adjFun g) ρv b := (hρv b).mp hb
    have hedge2 : Reach (adjFun g) u v :=
      Relation.ReflTransGen.single ((mem_edgeSeq_iff hwf.1).mp hpE)
    exact ((h1.2.trans h2.1).trans hedge2).trans (h3.2.trans h4.1)

theorem condensation_rtg_reach (N : Nat) (g : Dict) (hwf : WfDict N g) :
    ∀ c i, Relation.ReflTransGen (cEdge (build_compressed_graph_from_sccs
        (find_strongly_connected_components N g).2
        (find_strongly_connected_components N g).1)) c i →
      ∀ Cc Ci, (find_strongly_connected_components N g).1[c]? = some Cc →
        (find_strongly_connected_components N g).1[i]? = some Ci →
        ∀ a ∈ Cc, ∀ b ∈ Ci, Reach (adjFun g) a b := by
  obtain ⟨k1, k2, k3, hext⟩ := scc_master N g hwf
  intro c i hrtg
  induction hrtg using Relation.ReflTransGen.head_induction_on with
  | refl =>
    intro Cc Ci hc hi a ha b hb
    have hCeq : Cc = Ci := by
      rw [hc] at hi
      exact Option.some.inj hi
    subst hCeq
    have hCmem : Cc ∈ (find_strongly_connected_components N g).1 := by
      obtain ⟨hbnd, hgt⟩ := List.getElem?_eq_some.mp hc
      rw [← hgt]
      exact List.getElem_mem hbnd
    obtain ⟨ρ, hρMem, hρ⟩ := k1 Cc hCmem
    exact ((hρ a).mp ha).2.trans ((hρ b).mp hb).1
  | @head c m hstep htail ih =>
    intro Cc Ci hc hi a ha b hb
    obtain ⟨Cc2, Cm, u, v, hc2, hm, huC, hvC, _, hpair⟩ :=
      condensation_edge_reach N g hwf c m hstep
    have hCeq : Cc2 = Cc := by
      rw [hc2] at hc
      exact Option.some.inj hc
    subst hCeq
    exact (hpair a ha v hvC).trans (ih Cm Ci hm hi v hvC b hb)

/-- C4: for every well-formed input graph, the condensed graph built by
`build_compressed_graph_from_sccs` over the computed SCCs has no directed
cycle (self-loops are never recorded since an edge inside one component is
skipped). -/
theorem C4_condensation_acyclic (N : Nat) (g : Dict) (hwf : WfDict N g) :
    ∀ i, ¬ Relation.TransGen (cEdge (build_compressed_graph_from_sccs
        (find_strongly_connected_components N g).2
        (find_strongly_connected_components N g).1)) i i := by
  intro i hTG
  obtain ⟨k1, k2, k3, hext⟩ := scc_master N g hwf
  rcases Relation.TransGen.head'_iff.mp hTG with ⟨c, hstep, hrtg⟩
  obtain ⟨Ci, Cc, u, v, hgi, hgc, huCi, hvCc, hne, hpair⟩ :=
    condensation_edge_reach N g hwf i c hstep
  have hvu : Reach (adjFun g) v u :=
    condensation_rtg_reach N g hwf c i hrtg Cc Ci hgc hgi v hvCc u huCi
  have huv : Reach (adjFun g) u v := hpair u huCi v hvCc
  have hCiMem : Ci ∈ (find_strongly_connected_components N g).1 := by
    obtain ⟨hbnd, hgt⟩ := List.getElem?_eq_some.mp hgi
    rw [← hgt]
    exact List.getElem_mem hbnd
  obtain ⟨ρ, hρMem, hρ⟩ := k1 Ci hCiMem
  have hρu : SameSCC (adjFun g) ρ u := (hρ u).mp huCi
  have hρv : SameSCC (adjFun g) ρ v := ⟨hρu.1.trans huv, hvu.trans hρu.2⟩
  exact disjoint_of_ne_index k3 hgi hgc hne ((hρ v).mpr hρv) hvCc

/-- C4 witness: no condensation cycle through index 0 on the two-vertex
cycle graph. -/
theorem C4_witness :
    ¬ Relation.TransGen (cEdge (build_compressed_graph_from_sccs
        (find_strongly_connected_components 2 (ddAppend (ddAppend [] 0 1) 1 0)).2
        (find_strongly_connected_components 2 (ddAppend (ddAppend [] 0 1) 1 0)).1)) 0 0 :=
  C4_condensation_acyclic 2 (ddAppend (ddAppend [] 0 1) 1 0)
    (by unfold WfDict; decide) 0

/-! ## Claim theorem C8: the transpose -/

/-- C8: `_transpose_graph` produces a structure containing the reversed
edge `(v, u)` exactly as many times as the original contains `(u, v)`, and
the original adjacency dictionary is returned unchanged (the iteration
only ever looks up keys that are present, so the `defaultdict` is never
mutated). -/
theorem C8_transpose_spec (g : Dict) (hnd : (keysOf g).Nodup) (u v : Nat) :
    (edgeSeq (transposePy g).1).countP (fun e => decide (e = (v, u))) =
      (edgeSeq g).countP (fun e => decide (e = (u, v))) ∧
    (transposePy g).2 = g := by
  refine ⟨?_, transposePy_snd g⟩
  show (edgeSeq (transposeD g)).countP _ = _
  have hperm : (edgeSeq (transposeD g)).Perm
      ((edgeSeq g).map Prod.swap ++ edgeSeq ([] : Dict)) := by
    rw [transposeD_eq g hnd]
    exact edgeSeq_foldT_perm (edgeSeq g) []
  rw [hperm.countP_eq, List.countP_append]
  have hmap : ((edgeSeq g).map Prod.swap).countP (fun e => decide (e = (v, u))) =
      (edgeSeq g).countP (fun e => decide (e = (u, v))) := by
    rw [List.countP_map]
    refine List.countP_congr ?_
    intro e _
    show decide (Prod.swap e = (v, u)) = true ↔ decide (e = (u, v)) = true
    simp only [decide_eq_true_eq]
    constructor
    · intro h
      have h2 := congrArg Prod.swap h
      simpa using h2
    · intro h
      rw [h]
      rfl
  rw [hmap]
  show _ + List.countP _ ([] : List (Nat × Nat)) = _
  simp

/-- C8 witness: concrete edge counts for the two-vertex cycle graph. -/
theorem C8_witness :
    (edgeSeq (transposePy (ddAppend (ddAppend [] 0 1) 1 0)).1).countP
        (fun e => decide (e = (1, 0))) =
      (edgeSeq (ddAppend (ddAppend [] 0 1) 1 0)).countP (fun e => decide (e = (0, 1))) ∧
    (transposePy (ddAppend (ddAppend [] 0 1) 1 0)).2 = ddAppend (ddAppend [] 0 1) 1 0 :=
  C8_transpose_spec (ddAppend (ddAppend [] 0 1) 1 0) (by decide) 0 1

/-! ## Claim theorem C9: repeated invocations agree -/

theorem find_min_congr (G G2 : Graph) (start : String)
    (hA : G2.airports = G.airports) (hV : G2.vertices = G.vertices)
    (hadj : adjFun G2.graph = adjFun G.graph) (hE : edgeSeq G2.graph = edgeSeq G.graph)
    (hnd : (keysOf G.graph).Nodup) (hnd2 : (keysOf G2.graph).Nodup) :
    (G2.find_minimum_additional_routes start).1 =
      (G.find_minimum_additional_routes start).1 := by
  have hscc : (find_strongly_connected_components G.vertices G2.graph).1
      = (find_strongly_connected_components G.vertices G.graph).1 := by
    rw [(find_scc_spec _ _ hnd2).1, (find_scc_spec _ _ hnd).1, hadj]
    unfold adjTOf
    rw [hE]
  have hcg : build_compressed_graph_from_sccs
      (find_strongly_connected_components G.vertices G2.graph).2
      (find_strongly_connected_components G.vertices G.graph).1 =
      build_compressed_graph_from_sccs
      (find_strongly_connected_components G.vertices G.graph).2
      (find_strongly_connected_components G.vertices G.graph).1 := by
    have hext2 := (find_scc_spec G.vertices G2.graph hnd2).2
    have hext := (find_scc_spec G.vertices G.graph hnd).2
    rw [build_compressed_eq _ _ (hext2.2.2 hnd2), build_compressed_eq _ _ (hext.2.2 hnd)]
    rw [hext2.2.1, hext.2.1, hE]
  rw [find_min_unfold, find_min_unfold, hA, hV, hscc, hcg]
  split
  · rfl
  · split
    · rfl
    · split
      · rfl
      · rfl

/-- C9: calling `find_minimum_additional_routes` a second time on the
`Graph` object left behind by the first call (whose pass 1 may have
auto-created empty adjacency entries in the `defaultdict`) returns the
same value as the first call. -/
theorem C9_repeat_deterministic (G : Graph) (start : String)
    (hnd : (keysOf G.graph).Nodup) :
    ((G.find_minimum_additional_routes start).2.find_minimum_additional_routes start).1 =
      (G.find_minimum_additional_routes start).1 := by
  have hG1 : (G.find_minimum_additional_routes start).2 =
      { G with graph := (find_strongly_connected_components G.vertices G.graph).2 } := by
    rw [find_min_unfold]
    split
    · rfl
    · split
      · rfl
      · split
        · rfl
        · rfl
  have hext := (find_scc_spec G.vertices G.graph hnd).2
  rw [hG1]
  exact find_min_congr G _ start rfl rfl hext.1 hext.2.1 hnd (hext.2.2 hnd)

/-- C9 witness: the second invocation on the sample graph also returns 3. -/
theorem C9_witness :
    (((sampleGraph.find_minimum_additional_routes "DSM").2).find_minimum_additional_routes
        "DSM").1 = (sampleGraph.find_minimum_additional_routes "DSM").1 :=
  C9_repeat_deterministic sampleGraph "DSM" (by decide)

/-! ## Duplicate-edge invariance (claim C7)

Inserting a neighbor that already occurs earlier in the same adjacency
list does not change either DFS pass: by the time the duplicated element
is reached in the neighbor loop, its earlier occurrence has already been
processed, so the vertex is visited (or the fuel is zero and the extra
call is a no-op). -/

theorem dfsL1_congr_of {adj adj' : Nat → List Nat} {f : Nat}
    (h : ∀ v st, dfs1 adj' f v st = dfs1 adj f v st) :
    ∀ (l : List Nat) (st : (Nat → Bool) × List Nat),
      dfsL1 adj' f l st = dfsL1 adj f l st := by
  intro l
  induction l with
  | nil => intro st; rfl
  | cons n l ih =>
    intro st
    rw [dfsL1_cons, dfsL1_cons, h n st]
    exact ih _

theorem dfsL2_congr_of {adj adj' : Nat → List Nat} {f : Nat}
    (h : ∀ v st, dfs2 adj' f v st = dfs2 adj f v st) :
    ∀ (l : List Nat) (st : (Nat → Bool) × List Nat),
      dfsL2 adj' f l st = dfsL2 adj f l st := by
  intro l
  induction l with
  | nil => intro st; rfl
  | cons n l ih =>
    intro st
    rw [dfsL2_cons, dfsL2_cons, h n st]
    exact ih _

theorem dfsL1_marks_mem {adj : Nat → List Nat} {f : Nat} :
    ∀ (l : List Nat) (st : (Nat → Bool) × List Nat) (x : Nat), x ∈ l →
      (dfsL1 adj (f + 1) l st).1 x = true := by
  intro l
  induction l with
  | nil => intro st x hx; simp at hx
  | cons n l ih =>
    intro st x hx
    rw [dfsL1_cons]
    by_cases hn : st.1 n = true
    · rw [if_pos hn]
      rcases List.mem_cons.mp hx with h1 | h1
      · rw [h1]
        exact dfsL1_vis_mono adj (f + 1) l st hn
      · exact ih st x h1
    · rw [if_neg hn]
      rcases List.mem_cons.mp hx with h1 | h1
      · rw [h1]
        exact dfsL1_vis_mono adj (f + 1) l _ (dfs1_marks_root adj n st (Nat.succ_pos f))
      · exact ih _ x h1

theorem dfsL2_marks_mem {adj : Nat → List Nat} {f : Nat} :
    ∀ (l : List Nat) (st : (Nat → Bool) × List Nat) (x : Nat), x ∈ l →
      (dfsL2 adj (f + 1) l st).1 x = true := by
  intro l
  induction l with
  | nil => intro st x hx; simp at hx
  | cons n l ih =>
    intro st x hx
    rw [dfsL2_cons]
    by_cases hn : st.1 n = true
    · rw [if_pos hn]
      rcases List.mem_cons.mp hx with h1 | h1
      · rw [h1]
        exact dfsL2_vis_mono adj (f + 1) l st hn
      · exact ih st x h1
    · rw [if_neg hn]
      rcases List.mem_cons.mp hx with h1 | h1
      · rw [h1]
        exact dfsL2_vis_mono adj (f + 1) l _ (dfs2_marks_root adj n st (Nat.succ_pos f))
      · exact ih _ x h1

theorem dupext_dfs1 {adj adj' : Nat → List Nat} (h : DupExt adj adj') :
    ∀ (fuel v : Nat) (st : (Nat → Bool) × List Nat),
      dfs1 adj' fuel v st = dfs1 adj fuel v st := by
  intro fuel
  induction fuel with
  | zero => intro v st; rfl
  | succ f ih =>
    intro v st
    obtain ⟨k, x, l₁, l₂, hk, hk', hx, hother⟩ := h
    have hcg : ∀ (l : List Nat) (st' : (Nat → Bool) × List Nat),
        dfsL1 adj' f l st' = dfsL1 adj f l st' := dfsL1_congr_of ih
    rw [dfs1_succ, dfs1_succ]
    by_cases hv : v = k
    · subst hv
      rw [hk', hk, hcg]
      suffices hS : dfsL1 adj f (l₁ ++ x :: l₂) (Mark v st.1, st.2)
          = dfsL1 adj f (l₁ ++ l₂) (Mark v st.1, st.2) by rw [hS]
      have happ1 : dfsL1 adj f (l₁ ++ x :: l₂) (Mark v st.1, st.2)
          = dfsL1 adj f (x :: l₂) (dfsL1 adj f l₁ (Mark v st.1, st.2)) := by
        unfold dfsL1
        rw [List.foldl_append]
      have happ2 : dfsL1 adj f (l₁ ++ l₂) (Mark v st.1, st.2)
          = dfsL1 adj f l₂ (dfsL1 adj f l₁ (Mark v st.1, st.2)) := by
        unfold dfsL1
        rw [List.foldl_append]
      rw [happ1, happ2, dfsL1_cons]
      cases f with
      | zero =>
        generalize dfsL1 adj 0 l₁ (Mark v st.1, st.2) = A
        have hA : (if A.1 x = true then A else dfs1 adj 0 x A) = A := by
          split
          · rfl
          · rfl
        rw [hA]
      | succ f2 =>
        rw [if_pos (dfsL1_marks_mem l₁ (Mark v st.1, st.2) x hx)]
    · rw [hother v hv, hcg]

theorem dupext_dfs2 {adj adj' : Nat → List Nat} (h : DupExt adj adj') :
    ∀ (fuel v : Nat) (st : (Nat → Bool) × List Nat),
      dfs2 adj' fuel v st = dfs2 adj fuel v st := by
  intro fuel
  induction fuel with
  | zero => intro v st; rfl
  | succ f ih =>
    intro v st
    obtain ⟨k, x, l₁, l₂, hk, hk', hx, hother⟩ := h
    have hcg : ∀ (l : List Nat) (st' : (Nat → Bool) × List Nat),
        dfsL2 adj' f l st' = dfsL2 adj f l st' := dfsL2_congr_of ih
    rw [dfs2_succ, dfs2_succ]
    by_cases hv : v = k
    · subst hv
      rw [hk', hk, hcg]
      have happ1 : dfsL2 adj f (l₁ ++ x :: l₂) (Mark v st.1, st.2 ++ [v])
          = dfsL2 adj f (x :: l₂) (dfsL2 adj f l₁ (Mark v st.1, st.2 ++ [v])) := by
        unfold dfsL2
        rw [List.foldl_append]
      have happ2 : dfsL2 adj f (l₁ ++ l₂) (Mark v st.1, st.2 ++ [v])
          = dfsL2 adj f l₂ (dfsL2 adj f l₁ (Mark v st.1, st.2 ++ [v])) := by
        unfold dfsL2
        rw [List.foldl_append]
      rw [happ1, happ2, dfsL2_cons]
      cases f with
      | zero =>
        generalize dfsL2 adj 0 l₁ (Mark v st.1, st.2 ++ [v]) = A
        have hA : (if A.1 x = true then A else dfs2 adj 0 x A) = A := by
          split
          · rfl
          · rfl
        rw [hA]
      | succ f2 =>
        rw [if_pos (dfsL2_marks_mem l₁ (Mark v st.1, st.2 ++ [v]) x hx)]
    · rw [hother v hv, hcg]

theorem dupext_pass1 {adj adj' : Nat → List Nat} (h : DupExt adj adj') (fuel : Nat) :
    ∀ (l : List Nat) (st : (Nat → Bool) × List Nat),
      pass1 adj' fuel l st = pass1 adj fuel l st := by
  intro l
  induction l with
  | nil => intro st; rfl
  | cons i rest ih =>
    intro st
    rw [pass1_cons, pass1_cons, dupext_dfs1 h fuel i st]
    by_cases hi : st.1 i = true
    · rw [if_pos hi, if_pos hi]
      exact ih st
    · rw [if_neg hi, if_neg hi]
      exact ih _

theorem dupext_pass2 {adj adj' : Nat → List Nat} (h : DupExt adj adj') (fuel : Nat) :
    ∀ (l : List Nat) (vis : Nat → Bool) (sccs : List (List Nat)),
      pass2 adj' fuel l vis sccs = pass2 adj fuel l vis sccs := by
  intro l
  induction l with
  | nil => intro vis sccs; rfl
  | cons v rest ih =>
    intro vis sccs
    rw [pass2_cons, pass2_cons, dupext_dfs2 h fuel v (vis, [])]
    by_cases hv : vis v = true
    · rw [if_pos hv, if_pos hv]
      exact ih vis sccs
    · rw [if_neg hv, if_neg hv]
      exact ih _ _

theorem dupext_sccsPure {adjO adjO' adjT adjT' : Nat → List Nat}
    (hO : DupExt adjO adjO') (hT : DupExt adjT adjT') (N : Nat) :
    sccsPure adjO' adjT' N = sccsPure adjO adjT N := by
  unfold sccsPure
  rw [dupext_pass1 hO, dupext_pass2 hT]

theorem filter_snd_cons_self (a b : Nat) (E : List (Nat × Nat)) :
    List.filter (fun q => q.2 == b) ((a, b) :: E) =
      (a, b) :: List.filter (fun q => q.2 == b) E := by
  simp [List.filter_cons]

theorem filter_snd_cons_ne (a b w : Nat) (E : List (Nat × Nat)) (h : ¬ b = w) :
    List.filter (fun q => q.2 == w) ((a, b) :: E) =
      List.filter (fun q => q.2 == w) E := by
  simp [List.filter_cons, h]

theorem foldT_adjFun :
    ∀ (E : List (Nat × Nat)) (T : Dict) (w : Nat),
      adjFun (E.foldl (fun t p => ddAppend t p.2 p.1) T) w =
        adjFun T w ++ (E.filter (fun q => q.2 == w)).map Prod.fst := by
  intro E
  induction E with
  | nil => intro T w; simp
  | cons p E ih =>
    intro T w
    obtain ⟨a, b⟩ := p
    rw [List.foldl_cons, ih]
    by_cases hw : b = w
    · subst hw
      rw [filter_snd_cons_self, List.map_cons]
      show adjFun (ddAppend T b a) b ++ _ = _
      rw [adjFun_ddAppend_self, List.append_assoc, List.singleton_append]
    · rw [filter_snd_cons_ne a b w E hw]
      show adjFun (ddAppend T b a) w ++ _ = _
      rw [adjFun_ddAppend_ne T a (fun hh => hw hh.symm)]

theorem adjTOf_contrib (g : Dict) (w : Nat) :
    adjTOf g w = ((edgeSeq g).filter (fun q => q.2 == w)).map Prod.fst := by
  unfold adjTOf foldT
  rw [foldT_adjFun]
  rfl

theorem edgeSeq_ddAppend_split :
    ∀ (g : Dict) (u dst : Nat),
      ∃ E₁ E₂, edgeSeq g = E₁ ++ E₂ ∧
        edgeSeq (ddAppend g u dst) = E₁ ++ (u, dst) :: E₂ ∧
        ∀ t ∈ adjFun g u, (u, t) ∈ E₁ := by
  intro g
  induction g with
  | nil =>
    intro u dst
    refine ⟨[], [], rfl, ?_, ?_⟩
    · simp [ddAppend, edgeSeq]
    · intro t ht
      simp [adjFun, lookupD] at ht
  | cons p rest ih =>
    intro u dst
    obtain ⟨a, l⟩ := p
    by_cases hu : u = a
    · subst hu
      refine ⟨l.map (fun t => (u, t)), edgeSeq rest, ?_, ?_, ?_⟩
      · rw [edgeSeq_cons]
      · rw [show ddAppend ((u, l) :: rest) u dst = (u, l ++ [dst]) :: rest from
          by simp [ddAppend]]
        rw [edgeSeq_cons]
        simp [List.map_append]
      · intro t ht
        rw [adjFun_cons_self] at ht
        exact List.mem_map.mpr ⟨t, ht, rfl⟩
    · obtain ⟨E₁, E₂, h1, h2, h3⟩ := ih u dst
      refine ⟨l.map (fun t => (a, t)) ++ E₁, E₂, ?_, ?_, ?_⟩
      · rw [edgeSeq_cons, h1, List.append_assoc]
      · rw [ddAppend_cons_ne hu, edgeSeq_cons, h2, List.append_assoc]
      · intro t ht
        rw [adjFun_cons_ne l rest hu] at ht
        exact List.mem_append.mpr (Or.inr (h3 t ht))

theorem dupext_ddAppend_adj {g : Dict} {u dst : Nat} (hdup : dst ∈ adjFun g u) :
    DupExt (adjFun g) (adjFun (ddAppend g u dst)) := by
  refine ⟨u, dst, adjFun g u, [], (List.append_nil _).symm, ?_, hdup, ?_⟩
  · rw [adjFun_ddAppend_self]
  · intro w hw
    exact adjFun_ddAppend_ne g dst hw

theorem dupext_ddAppend_adjT {g : Dict} {u dst : Nat} (hdup : dst ∈ adjFun g u) :
    DupExt (adjTOf g) (adjTOf (ddAppend g u dst)) := by
  obtain ⟨E₁, E₂, h1, h2, h3⟩ := edgeSeq_ddAppend_split g u dst
  have hmem : (u, dst) ∈ E₁ := h3 dst hdup
  refine ⟨dst, u, (E₁.filter (fun q => q.2 == dst)).map Prod.fst,
    (E₂.filter (fun q => q.2 == dst)).map Prod.fst, ?_, ?_, ?_, ?_⟩
  · rw [adjTOf_contrib, h1, List.filter_append, List.map_append]
  · rw [adjTOf_contrib, h2, List.filter_append, filter_snd_cons_self,
      List.map_append, List.map_cons]
  · exact List.mem_map.mpr ⟨(u, dst), List.mem_filter.mpr ⟨hmem, by simp⟩, rfl⟩
  · intro w hw
    rw [adjTOf_contrib, adjTOf_contrib, h1, h2, List.filter_append, List.filter_append,
      filter_snd_cons_ne u dst w E₂ (fun hh => hw hh.symm)]

theorem cgAdd_noop (cg : Dict) (k v : Nat) (h : v ∈ adjFun cg k) : cgAdd cg k v = cg := by
  induction cg with
  | nil => simp [adjFun, lookupD] at h
  | cons p rest ih =>
    obtain ⟨a, l⟩ := p
    by_cases hka : k = a
    · subst hka
      rw [adjFun_cons_self] at h
      simp [cgAdd, setAdd, h]
    · rw [adjFun_cons_ne l rest hka] at h
      rw [cgAdd_cons_ne hka, ih h]

theorem cgAdd_mem_mono (cg : Dict) (k v i j : Nat) (h : j ∈ adjFun cg i) :
    j ∈ adjFun (cgAdd cg k v) i := by
  by_cases hik : i = k
  · subst hik
    rw [cgAdd_adjFun_self]
    exact mem_setAdd.mpr (Or.inl h)
  · rw [cgAdd_adjFun_ne cg v hik]
    exact h

theorem foldl_congr_init {α β : Type} (f : α → β → α) (l : List β) {a b : α}
    (h : a = b) : l.foldl f a = l.foldl f b := by
  rw [h]

theorem compress_fold_mem_mono (sccs : List (List Nat)) :
    ∀ (E : List (Nat × Nat)) (cg0 : Dict) (i j : Nat), j ∈ adjFun cg0 i →
      j ∈ adjFun (E.foldl (fun cg p =>
        if ¬ ((sccMapFun sccs p.1).getD 0 = (sccMapFun sccs p.2).getD 0)
        then cgAdd cg ((sccMapFun sccs p.1).getD 0) ((sccMapFun sccs p.2).getD 0)
        else cg) cg0) i := by
  intro E
  induction E with
  | nil => intro cg0 i j h; exact h
  | cons p E ihE =>
    intro cg0 i j h
    rw [List.foldl_cons]
    refine ihE _ i j ?_
    dsimp only
    by_cases hc : ¬ ((sccMapFun sccs p.1).getD 0 = (sccMapFun sccs p.2).getD 0)
    · rw [if_pos hc]
      exact cgAdd_mem_mono cg0 _ _ i j h
    · rw [if_neg hc]
      exact h

theorem compress_fold_mem_of (sccs : List (List Nat)) :
    ∀ (E : List (Nat × Nat)) (cg0 : Dict) (u dst : Nat), (u, dst) ∈ E →
      ¬ ((sccMapFun sccs u).getD 0 = (sccMapFun sccs dst).getD 0) →
      (sccMapFun sccs dst).getD 0 ∈ adjFun (E.foldl (fun cg p =>
        if ¬ ((sccMapFun sccs p.1).getD 0 = (sccMapFun sccs p.2).getD 0)
        then cgAdd cg ((sccMapFun sccs p.1).getD 0) ((sccMapFun sccs p.2).getD 0)
        else cg) cg0) ((sccMapFun sccs u).getD 0) := by
  intro E
  induction E with
  | nil => intro cg0 u dst hmem hc; simp at hmem
  | cons p E ihE =>
    intro cg0 u dst hmem hc
    rw [List.foldl_cons]
    rcases List.mem_cons.mp hmem with h1 | h1
    · refine compress_fold_mem_mono sccs E _ _ _ ?_
      rw [← h1]
      dsimp only
      rw [if_pos hc, cgAdd_adjFun_self]
      exact mem_setAdd.mpr (Or.inr rfl)
    · exact ihE _ u dst h1 hc

theorem compress_fold_dup (sccs : List (List Nat)) (E₁ E₂ : List (Nat × Nat))
    (u dst : Nat) (hmem : (u, dst) ∈ E₁) :
    (E₁ ++ (u, dst) :: E₂).foldl (fun cg p =>
        if ¬ ((sccMapFun sccs p.1).getD 0 = (sccMapFun sccs p.2).getD 0)
        then cgAdd cg ((sccMapFun sccs p.1).getD 0) ((sccMapFun sccs p.2).getD 0)
        else cg) [] =
      (E₁ ++ E₂).foldl (fun cg p =>
        if ¬ ((sccMapFun sccs p.1).getD 0 = (sccMapFun sccs p.2).getD 0)
        then cgAdd cg ((sccMapFun sccs p.1).getD 0) ((sccMapFun sccs p.2).getD 0)
        else cg) [] := by
  rw [List.foldl_append, List.foldl_append, List.foldl_cons]
  refine foldl_congr_init _ E₂ ?_
  dsimp only
  by_cases hc : ¬ ((sccMapFun sccs u).getD 0 = (sccMapFun sccs dst).getD 0)
  · rw [if_pos hc]
    exact cgAdd_noop _ _ _ (compress_fold_mem_of sccs E₁ [] u dst hmem hc)
  · rw [if_neg hc]

theorem dupext_fscc (N : Nat) (g : Dict) (u dst : Nat) (hnd : (keysOf g).Nodup)
    (hdup : dst ∈ adjFun g u) :
    (find_strongly_connected_components N (ddAppend g u dst)).1 =
      (find_strongly_connected_components N g).1 := by
  rw [(find_scc_spec N (ddAppend g u dst) (nodupKeys_ddAppend u dst hnd)).1,
    (find_scc_spec N g hnd).1]
  exact dupext_sccsPure (dupext_ddAppend_adj hdup) (dupext_ddAppend_adjT hdup) N

theorem dupext_compressed (N : Nat) (g : Dict) (u dst : Nat) (S : List (List Nat))
    (hnd : (keysOf g).Nodup) (hdup : dst ∈ adjFun g u) :
    build_compressed_graph_from_sccs
        (find_strongly_connected_components N (ddAppend g u dst)).2 S =
      build_compressed_graph_from_sccs
        (find_strongly_connected_components N g).2 S := by
  have hnd' : (keysOf (ddAppend g u dst)).Nodup := nodupKeys_ddAppend u dst hnd
  have hext' := (find_scc_spec N (ddAppend g u dst) hnd').2
  have hext := (find_scc_spec N g hnd).2
  have hbc' : build_compressed_graph_from_sccs
      (find_strongly_connected_components N (ddAppend g u dst)).2 S =
      (edgeSeq (ddAppend g u dst)).foldl (fun cg p =>
        if ¬ ((sccMapFun S p.1).getD 0 = (sccMapFun S p.2).getD 0)
        then cgAdd cg ((sccMapFun S p.1).getD 0) ((sccMapFun S p.2).getD 0)
        else cg) [] := by
    have := build_compressed_eq
      (find_strongly_connected_components N (ddAppend g u dst)).2 S (hext'.2.2 hnd')
    rw [hext'.2.1] at this
    exact this
  have hbc : build_compressed_graph_from_sccs
      (find_strongly_connected_components N g).2 S =
      (edgeSeq g).foldl (fun cg p =>
        if ¬ ((sccMapFun S p.1).getD 0 = (sccMapFun S p.2).getD 0)
        then cgAdd cg ((sccMapFun S p.1).getD 0) ((sccMapFun S p.2).getD 0)
        else cg) [] := by
    have := build_compressed_eq
      (find_strongly_connected_components N g).2 S (hext.2.2 hnd)
    rw [hext.2.1] at this
    exact this
  rw [hbc', hbc]
  obtain ⟨E₁, E₂, h1, h2, h3⟩ := edgeSeq_ddAppend_split g u dst
  rw [h1, h2]
  exact compress_fold_dup S E₁ E₂ u dst (h3 dst hdup)

/-- C7: for a graph whose adjacency dictionary has duplicate-free keys,
inserting an edge `(u, dst)` that is already present in the adjacency list
of `u` a second time via `add_edge` leaves the value (result or exception)
returned by `find_minimum_additional_routes` unchanged: duplicate parallel
edges neither crash the computation nor change the answer. -/
theorem C7_duplicate_edge_idempotent (G : Graph) (u dst : Nat) (start : String)
    (hnd : (keysOf G.graph).Nodup) (hdup : dst ∈ adjFun G.graph u) :
    ((G.add_edge u dst).find_minimum_additional_routes start).1 =
      (G.find_minimum_additional_routes start).1 := by
  have hA : (G.add_edge u dst).airports = G.airports := rfl
  have hV : (G.add_edge u dst).vertices = G.vertices := rfl
  have hG2 : (G.add_edge u dst).graph = ddAppend G.graph u dst := rfl
  have hscc : (find_strongly_connected_components G.vertices (ddAppend G.graph u dst)).1
      = (find_strongly_connected_components G.vertices G.graph).1 :=
    dupext_fscc G.vertices G.graph u dst hnd hdup
  have hcg : build_compressed_graph_from_sccs
      (find_strongly_connected_components G.vertices (ddAppend G.graph u dst)).2
      (find_strongly_connected_components G.vertices G.graph).1 =
      build_compressed_graph_from_sccs
      (find_strongly_connected_components G.vertices G.graph).2
      (find_strongly_connected_components G.vertices G.graph).1 :=
    dupext_compressed G.vertices G.graph u dst
      (find_strongly_connected_components G.vertices G.graph).1 hnd hdup
  rw [find_min_unfold, find_min_unfold, hA, hV, hG2, hscc, hcg]
  split
  · rfl
  · split
    · rfl
    · split
      · rfl
      · rfl

/-- C7 witness: re-adding the already-present route DSM -> ORD (ids 0 -> 1)
to the sample graph leaves the returned value unchanged. -/
theorem C7_witness :
    (keysOf sampleGraph.graph).Nodup ∧ 1 ∈ adjFun sampleGraph.graph 0 ∧
    ((sampleGraph.add_edge 0 1).find_minimum_additional_routes "DSM").1 =
      (sampleGraph.find_minimum_additional_routes "DSM").1 :=
  ⟨by decide, by decide,
    C7_duplicate_edge_idempotent sampleGraph 0 1 "DSM" (by decide) (by decide)⟩

end FlightRoutes
